import Mathlib

/-!
# unicorn-history-server: connection descriptor, schema setup, event counting

A shallow embedding of

* `internal/repository/postgres.go` (the history-server repository),
* `internal/event-collector/repository/postgres.go` (the event-collector repository),
* the in-memory event repository and `Service.processStreamResponse` exercised by
  `internal/yunikorn/stream_test.go`,

together with the properties the specification states about them.

Go strings are modelled as Lean `String`s.  The only bytes the code inspects are
ASCII (backslash, single quote, newline), which never occur inside a multi-byte
UTF-8 sequence, so working on characters is the same as working on bytes.
-/

set_option autoImplicit false

/-! ## Go library functions used by the source -/

namespace Go

/-- The ASCII digit for `d % 10`, Go's `byte(d) + '0'`. -/
def digitChar (d : Nat) : Char :=
  match d % 10 with
  | 0 => '0' | 1 => '1' | 2 => '2' | 3 => '3' | 4 => '4'
  | 5 => '5' | 6 => '6' | 7 => '7' | 8 => '8' | _ => '9'

/-- The loop `for v > 0 { w--; buf[w] = byte(v%10) + '0'; v /= 10 }` of `fmtInt`
(package `time`), writing in front of `buf`.  `fuel` bounds the iterations. -/
def fmtIntLoop : Nat → Nat → List Char → List Char
  | 0, _, buf => buf
  | fuel + 1, v, buf =>
    if v > 0 then fmtIntLoop fuel (v / 10) (digitChar (v % 10) :: buf) else buf

/-- Go's `fmtInt` of package `time`: the decimal form of `v` in front of `buf`.
The loop divides `v` by ten each round, so `v` rounds are always enough. -/
def fmtInt (buf : List Char) (v : Nat) : List Char :=
  if v = 0 then '0' :: buf else fmtIntLoop v v buf

/-- The loop of Go's `fmtFrac`: `prec` rounds, each dropping the last digit of `v`
and printing it once a non-zero digit has been seen. -/
def fmtFracLoop : Nat → Nat → Bool → List Char → List Char × Nat × Bool
  | 0, v, print, buf => (buf, v, print)
  | prec + 1, v, print, buf =>
    let digit := v % 10
    let print := print || digit != 0
    fmtFracLoop prec (v / 10) print (if print then digitChar digit :: buf else buf)

/-- Go's `fmtFrac` of package `time`: the fraction `v / 10^prec` in front of `buf`,
without trailing zeros and without the point when the fraction is zero; also
returns `v / 10^prec`. -/
def fmtFrac (buf : List Char) (v : Nat) (prec : Nat) : List Char × Nat :=
  let r := fmtFracLoop prec v false buf
  (if r.2.2 then '.' :: r.1 else r.1, r.2.1)

/-- Go's `time.Duration.format` on the magnitude `u` (nanoseconds), sign apart. -/
def formatMagnitude (u : Nat) : List Char :=
  if u < 1000000000 then
    if u = 0 then ['0', 's']
    else if u < 1000 then
      let r := fmtFrac ['n', 's'] u 0
      fmtInt r.1 r.2
    else if u < 1000000 then
      let r := fmtFrac ['µ', 's'] u 3
      fmtInt r.1 r.2
    else
      let r := fmtFrac ['m', 's'] u 6
      fmtInt r.1 r.2
  else
    let r := fmtFrac ['s'] u 9
    let buf := fmtInt r.1 (r.2 % 60)
    let u := r.2 / 60
    if u > 0 then
      let buf := fmtInt ('m' :: buf) (u % 60)
      let u := u / 60
      if u > 0 then fmtInt ('h' :: buf) u else buf
    else buf

/-- Go's `time.Duration.String`: a duration of `d` nanoseconds printed as in
`72h3m0.5s`, `1.5ms` or `0s`. -/
def durationString (d : Int) : String :=
  ⟨if d < 0 then '-' :: formatMagnitude d.natAbs else formatMagnitude d.natAbs⟩

/-- Go's `%d` verb on a signed integer: an optional minus sign and the decimal digits. -/
def sprintD (n : Int) : String :=
  ⟨if n < 0 then '-' :: fmtInt [] n.natAbs else fmtInt [] n.natAbs⟩

/-- What the replacer `strings.NewReplacer("\\", "\\\\", "'", "\\'")` writes for one
byte: both old strings are single bytes, so Go replaces byte by byte. -/
def replaceByte (c : Char) : List Char :=
  if c = '\\' then ['\\', '\\'] else if c = '\'' then ['\\', '\''] else [c]

/-- `r.Replace(s)` for `r := strings.NewReplacer("\\", "\\\\", "'", "\\'")`. -/
def replacerReplace (s : String) : String := ⟨s.data.flatMap replaceByte⟩

end Go

/-! ## `internal/repository/postgres.go`: the connection descriptor -/

namespace Repository

/-- The fields of `config.PostgresConfig` that `CreateConnectionString` reads.
The two durations are `time.Duration` values, a count of nanoseconds. -/
structure PostgresConfig where
  Host : String
  Port : Int
  Username : String
  Password : String
  DbName : String
  PoolMaxConns : Int
  PoolMinConns : Int
  PoolMaxConnLifetime : Int
  PoolMaxConnIdleTime : Int

/-- The five settings `CreateConnectionString` always writes. -/
def basePairs (cfg : PostgresConfig) : List String :=
  [ "host='" ++ Go.replacerReplace cfg.Host ++ "'",
    "port='" ++ Go.sprintD cfg.Port ++ "'",
    "user='" ++ Go.replacerReplace cfg.Username ++ "'",
    "password='" ++ Go.replacerReplace cfg.Password ++ "'",
    "dbname='" ++ Go.replacerReplace cfg.DbName ++ "'" ]

/-- The slice `pairs` of `CreateConnectionString` right before `strings.Join`. -/
def connectionPairs (cfg : PostgresConfig) : List String :=
  let pairs := basePairs cfg
  let pairs := if cfg.PoolMaxConns > 0 then
    pairs ++ ["pool_max_conns='" ++ Go.sprintD cfg.PoolMaxConns ++ "'"] else pairs
  let pairs := if cfg.PoolMinConns > 0 then
    pairs ++ ["pool_min_conns='" ++ Go.sprintD cfg.PoolMinConns ++ "'"] else pairs
  let pairs := if cfg.PoolMaxConnLifetime > 0 then
    pairs ++ ["pool_max_conn_lifetime='" ++ Go.durationString cfg.PoolMaxConnLifetime ++ "'"]
    else pairs
  let pairs := if cfg.PoolMaxConnIdleTime > 0 then
    pairs ++ ["pool_man_conn_idle_time='" ++ Go.durationString cfg.PoolMaxConnIdleTime ++ "'"]
    else pairs
  pairs

/-- `CreateConnectionString` of the history-server repository. -/
def CreateConnectionString (cfg : PostgresConfig) : String :=
  " ".intercalate (connectionPairs cfg)

end Repository

/-! ## `internal/repository/postgres.go`: the schema statements -/

namespace Repository

/-- The slice `setupStmts` of `RepoPostgres.Setup` (history-server), statement by
statement, with the line breaks and tabs of the Go raw strings. -/
def setupStmts : List String :=
  [ "DROP TABLE IF EXISTS partitions",
    "CREATE TABLE partitions(
\t\t\tid UUID,
\t\t\tcluster_id TEXT NOT NULL,
\t\t\tname TEXT NOT NULL,
\t\t\tcapacity JSONB,
\t\t\tused_capacity JSONB,
\t\t\tutilization JSONB,
\t\t\ttotal_nodes INTEGER,
\t\t\tapplications JSONB,
\t\t\ttotal_containers INTEGER,
\t\t\tstate TEXT,
\t\t\tlast_state_transition_time BIGINT,
\t\t\tUNIQUE (id),
\t\t\tUNIQUE (name),
\t\t\tPRIMARY KEY (id))",
    "DROP TABLE IF EXISTS applications",
    "CREATE TABLE applications(
\t\t\tid UUID,
\t\t\tapp_id TEXT NOT NULL,
\t\t\tused_resource JSONB,
\t\t\tmax_used_resource JSONB,
\t\t\tpending_resource JSONB,
\t\t\tpartition TEXT NOT NULL,
\t\t\tqueue_name TEXT NOT NULL,
\t\t\tsubmission_time BIGINT,
\t\t\tfinished_time BIGINT,
\t\t\trequests JSONB,
\t\t\tallocations JSONB,
\t\t\tstate TEXT,
\t\t\t\"user\" TEXT,
\t\t\tgroups TEXT[],
\t\t\trejected_message TEXT,
\t\t\tstate_log JSONB,
\t\t\tplace_holder_data JSONB,
\t\t\thas_reserved BOOLEAN,
\t\t\treservations TEXT[],
\t\t\tmax_request_priority INTEGER,
\t\t\tUNIQUE (id),
\t\t\tPRIMARY KEY (id))",
    "CREATE UNIQUE INDEX idx_partition_queue_app_id ON applications (partition, queue_name, app_id)",
    "DROP TABLE IF EXISTS queues",
    "CREATE TABLE queues(
\t\t\tid UUID,
\t\t\tqueue_name TEXT NOT NULL,
\t\t\tstatus TEXT,
\t\t\tpartition TEXT NOT NULL,
\t\t\tpending_resource JSONB,
\t\t\tmax_resource JSONB,
\t\t\tguaranteed_resource JSONB ,
\t\t\tallocated_resource JSONB ,
\t\t\tpreempting_resource JSONB ,
\t\t\thead_room JSONB,
\t\t\tis_leaf BOOLEAN,
\t\t\tis_managed BOOLEAN,
\t\t\tproperties JSONB,
\t\t\tparent TEXT,
\t\t\ttemplate_info JSONB,
\t\t\tchildren JSONB,
\t\t\tchildren_names TEXT[],
\t\t\tabs_used_capacity JSONB,
\t\t\tmax_running_apps INTEGER,
\t\t\trunning_apps INTEGER NOT NULL,
\t\t\tcurrent_priority INTEGER,
\t\t\tallocating_accepted_apps TEXT[],
\t\t\tUNIQUE (id),
\t\t\tPRIMARY KEY (id))",
    "CREATE UNIQUE INDEX idx_partition_queue_name ON queues (partition, queue_name)",
    "DROP TABLE IF EXISTS nodes",
    "CREATE TABLE nodes(
\t\t\tid UUID,
\t\t\tnode_id TEXT NOT NULL,
\t\t\tpartition TEXT NOT NULL,
\t\t\thost_name TEXT NOT NULL,
\t\t\track_name TEXT,
\t\t\tattributes JSONB,
\t\t\tcapacity JSONB,
\t\t\tallocated JSONB,
\t\t\toccupied JSONB,
\t\t\tavailable JSONB,
\t\t\tutilized JSONB,
\t\t\tallocations JSONB,
\t\t\tschedulable BOOLEAN,
\t\t\tis_reserved BOOLEAN,
\t\t\treservations TEXT[],
\t\t\tUNIQUE (id),
\t\t\tUNIQUE (node_id),
\t\t\tPRIMARY KEY (id))",
    "DROP TABLE IF EXISTS partition_nodes_util",
    "CREATE TABLE partition_nodes_util(
\t\t\tid UUID,
\t\t\tcluster_id TEXT NOT NULL,
\t\t\tpartition TEXT NOT NULL,
\t\t\tnodes_util_list JSONB,
\t\t\tUNIQUE (id),
\t\t\tPRIMARY KEY (id))",
    "DROP TABLE IF EXISTS history",
    "DROP TYPE IF EXISTS history_type",
    "CREATE TYPE history_type AS ENUM ('container', 'application')",
    "CREATE TABLE history(
\t\t\tid UUID,
\t\t\thistory_type history_type NOT NULL,
\t\t\ttotal_number BIGINT NOT NULL,
\t\t\ttimestamp BIGINT NOT NULL,
\t\t\tUNIQUE (id),
\t\t\tPRIMARY KEY (id))" ]

end Repository

/-! ## `internal/event-collector/repository/postgres.go` -/

namespace EventCollector

/-- The slice `setupStmts` of `RepoPostgres.Setup` (event-collector). -/
def setupStmts : List String :=
  [ "DROP TABLE IF EXISTS applications",
    "CREATE TABLE applications(
\t\t\tid UUID,
\t\t\tused_resource JSONB NOT NULL,
\t\t\tmax_used_resource JSONB NOT NULL,
\t\t\tpending_resource JSONB NOT NULL,
\t\t\tpartition TEXT NOT NULL,
\t\t\tqueue_name TEXT NOT NULL,
\t\t\tsubmission_time BIGINT NOT NULL,
\t\t\tfinished_time BIGINT,
\t\t\trequests JSONB NOT NULL,
\t\t\tallocations JSONB NOT NULL,
\t\t\tstate TEXT,
\t\t\t\"user\" TEXT,
\t\t\tgroups TEXT[],
\t\t\trejected_message TEXT,
\t\t\tstate_log JSONB NOT NULL,
\t\t\tplace_holder_data JSONB NOT NULL,
\t\t\thas_reserved BOOLEAN,
\t\t\treservations TEXT[],
\t\t\tmax_request_priority INTEGER,
\t\t\tUNIQUE (id),
\t\t\tPRIMARY KEY (id))",
    "DROP TABLE IF EXISTS queues",
    "CREATE TABLE queues(
\t\t\tid UUID,
\t\t\tqueue_name TEXT NOT NULL,
\t\t\tstatus TEXT,
\t\t\tpartition TEXT NOT NULL,
\t\t\tpending_resource JSONB,
\t\t\tmax_resource JSONB,
\t\t\tguaranteed_resource JSONB NOT NULL,
\t\t\tallocated_resource JSONB NOT NULL,
\t\t\tpreempting_resource JSONB NOT NULL,
\t\t\thead_room JSONB,
\t\t\tis_leaf BOOLEAN,
\t\t\tis_managed BOOLEAN,
\t\t\tproperties JSONB,
\t\t\tparent TEXT,
\t\t\ttemplate_info JSONB,
\t\t\tchildren UUID[],
\t\t\tchildren_names TEXT[],
\t\t\tabs_used_capacity JSONB,
\t\t\tmax_running_apps INTEGER,
\t\t\trunning_apps INTEGER NOT NULL,
\t\t\tcurrent_priority INTEGER,
\t\t\tallocating_accepted_apps TEXT[],
\t\t\tUNIQUE (id),
\t\t\tPRIMARY KEY (id))",
    "DROP TABLE IF EXISTS clusters",
    "CREATE TABLE clusters(
\t\t\tid UUID,
\t\t\tstart_time BIGINT NOT NULL,
\t\t\trm_build_information JSONB,
\t\t\tpartition_name TEXT NOT NULL,
\t\t\tcluster_name TEXT NOT NULL,
\t\t\tUNIQUE (id),
\t\t\tPRIMARY KEY (id))",
    "DROP TABLE IF EXISTS nodes",
    "CREATE TABLE nodes(
\t\t\tid UUID,
\t\t\tnode_id TEXT NOT NULL,
\t\t\thost_name TEXT NOT NULL,
\t\t\track_name TEXT,
\t\t\tattributes JSONB,
\t\t\tcapacity JSONB NOT NULL,
\t\t\tallocated JSONB NOT NULL,
\t\t\toccupied JSONB NOT NULL,
\t\t\tavailable JSONB NOT NULL,
\t\t\tutilized JSONB NOT NULL,
\t\t\tallocations JSONB,
\t\t\tschedulable BOOLEAN,
\t\t\tis_reserved BOOLEAN,
\t\t\treservations TEXT[],
\t\t\tUNIQUE (id),
\t\t\tPRIMARY KEY (id))" ]

/-- `CreateConnectionString` of the event-collector repository.  `values` lists the
entries of the Go map in the order in which the `range` loop visits them. -/
def CreateConnectionString (values : List (String × String)) : String :=
  " ".intercalate (values.map fun kv => kv.1 ++ "='" ++ Go.replacerReplace kv.2 ++ "'")

end EventCollector

/-! ## Reading the schema statements

The statements are SQL text.  To state what schema they declare, the text is cut
into words and read as far as the statements of the two `Setup` functions need:
`CREATE TABLE t(items)`, `CREATE UNIQUE INDEX i ON t (columns)` and the rest. -/

namespace Sql

/-- Blank, tab, line feed and carriage return separate SQL words. -/
def isSpace (c : Char) : Bool := c = ' ' || c = '\t' || c = '\n' || c = '\r'

/-- Brackets and the comma are words of their own. -/
def isPunct (c : Char) : Bool := c = '(' || c = ')' || c = ','

/-- Puts the word collected in `cur` (last character first) in front of `rest`. -/
def flush (cur : List Char) (rest : List String) : List String :=
  if cur.isEmpty then rest else String.mk cur.reverse :: rest

/-- The words of a statement, `cur` being the word under way. -/
def wordsAux : List Char → List Char → List String
  | [], cur => flush cur []
  | c :: cs, cur =>
    if isSpace c then flush cur (wordsAux cs [])
    else if isPunct c then flush cur (String.singleton c :: wordsAux cs [])
    else wordsAux cs (c :: cur)

/-- The words of a statement: `CREATE TABLE nodes(id UUID, UNIQUE (id))` reads as
`CREATE`, `TABLE`, `nodes`, `(`, `id`, `UUID`, `,`, `UNIQUE`, `(`, `id`, `)`, `)`. -/
def words (stmt : String) : List String := wordsAux stmt.data []

/-- The name of a column or table without the double quotes of a quoted identifier. -/
def unquote (w : String) : String := String.mk (w.data.filter fun c => c != '"')

/-- The names in a column list `a , b , c )`, up to the closing bracket. -/
def columnList : List String → List String
  | [] => []
  | w :: ws => if w = ")" then [] else if w = "," then columnList ws
    else unquote w :: columnList ws

/-- Cuts the words between the brackets of `CREATE TABLE t( ... )` at the commas
outside inner brackets; `depth` counts the open inner brackets and `cur` is the
item under way (last word first). -/
def itemsAux : List String → Nat → List String → List (List String)
  | [], _, cur => if cur.isEmpty then [] else [cur.reverse]
  | w :: ws, depth, cur =>
    if w = "(" then itemsAux ws (depth + 1) (w :: cur)
    else if w = ")" then
      match depth with
      | 0 => if cur.isEmpty then [] else [cur.reverse]
      | d + 1 => itemsAux ws d (w :: cur)
    else if w = "," && depth = 0 then cur.reverse :: itemsAux ws 0 []
    else itemsAux ws depth (w :: cur)

/-- A table as its `CREATE TABLE` statement declares it. -/
structure Table where
  name : String
  columns : List String
  notNull : List String
  primaryKey : List (List String)
  unique : List (List String)
deriving DecidableEq, Repr

/-- Whether the words of a column definition hold `NOT NULL`. -/
def hasNotNull : List String → Bool
  | [] => false
  | w :: ws =>
    match ws with
    | [] => false
    | w2 :: _ => (w = "NOT" && w2 = "NULL") || hasNotNull ws

/-- Adds one item of a `CREATE TABLE` statement to the table: a `UNIQUE (..)`
constraint, a `PRIMARY KEY (..)` constraint or a column definition. -/
def addItem (t : Table) : List String → Table
  | [] => t
  | w :: ws =>
    if w = "UNIQUE" then
      { t with unique := t.unique ++ [columnList (ws.drop 1)] }
    else if w = "PRIMARY" then
      { t with primaryKey := t.primaryKey ++ [columnList (ws.drop 2)] }
    else
      { t with columns := t.columns ++ [unquote w],
               notNull := if hasNotNull ws then t.notNull ++ [unquote w] else t.notNull }

/-- The table a statement creates, when the statement is `CREATE TABLE t( ... )`. -/
def createTable (stmt : String) : Option Table :=
  match words stmt with
  | "CREATE" :: "TABLE" :: name :: "(" :: rest =>
    some ((itemsAux rest 0 []).foldl addItem ⟨unquote name, [], [], [], []⟩)
  | _ => none

/-- The table and the column list of a `CREATE UNIQUE INDEX i ON t (columns)`. -/
def createUniqueIndex (stmt : String) : Option (String × List String) :=
  match words stmt with
  | "CREATE" :: "UNIQUE" :: "INDEX" :: _ :: "ON" :: table :: "(" :: rest =>
    some (unquote table, columnList rest)
  | _ => none

/-- The names of the tables the `CREATE TABLE` statements of a list create, in order. -/
def createdTables (stmts : List String) : List String :=
  stmts.filterMap fun stmt => (createTable stmt).map Table.name

/-- The table called `name` as the statement list declares it: its `CREATE TABLE`
statement, with the column lists of the unique indexes created on it added to the
uniqueness constraints. -/
def tableOf (stmts : List String) (name : String) : Option Table :=
  ((stmts.filterMap createTable).find? fun t => t.name = name).map fun t =>
    { t with unique := t.unique ++
        (stmts.filterMap createUniqueIndex).filterMap fun ix =>
          if ix.1 = name then some ix.2 else none }

/-- A row: the columns that hold a value, with the value; any other column is NULL. -/
abbrev Row := List (String × String)

/-- Two rows collide on a column list when both hold a value in each of its
columns and the values agree (NULLs never collide). -/
def collide (key : List String) (r s : Row) : Bool :=
  key.all fun c => (r.lookup c).isSome && r.lookup c == s.lookup c

/-- Whether the table, holding `rows`, accepts the new row `r`: every `NOT NULL`
and primary-key column holds a value and `r` collides with no row on the primary
key or on a uniqueness constraint. -/
def accepts (t : Table) (rows : List Row) (r : Row) : Bool :=
  (t.notNull ++ t.primaryKey.flatten).all (fun c => (r.lookup c).isSome) &&
  !(rows.any fun s => (t.primaryKey ++ t.unique).any fun key => collide key s r)

/-- Inserting rows one after the other into an empty table: the rows the table
ends up holding, a refused row being left out. -/
def insertAll (t : Table) : List Row → List Row → List Row
  | rows, [] => rows
  | rows, r :: rs => if accepts t rows r then insertAll t (rows ++ [r]) rs else insertAll t rows rs

end Sql


/-! ## `RepoPostgres.Setup`: running the statements

`s.dbpool.Exec(ctx, stmt)` belongs to the pgx library.  It is a parameter here: a
function from the database state and the statement to the new state and the error,
if any. -/

namespace Setup

/-- What a call of `Setup` did: the statements it passed to `Exec`, in call order,
the database state it left, and the error it panicked with (`none` when it
returned normally). -/
structure Run (σ ε : Type) where
  executed : List String
  db : σ
  panicked : Option ε

/-- The loop `for _, stmt := range setupStmts { _, err := Exec(ctx, stmt);
if err != nil { panic(err) } }`. -/
def runStmts {σ ε : Type} (exec : σ → String → σ × Option ε) : σ → List String → Run σ ε
  | db, [] => ⟨[], db, none⟩
  | db, stmt :: rest =>
    match exec db stmt with
    | (db1, some err) => ⟨[stmt], db1, some err⟩
    | (db1, none) =>
      let r := runStmts exec db1 rest
      ⟨stmt :: r.executed, r.db, r.panicked⟩

/-- The database state after `Exec` has been called on each statement of `stmts`
in turn, whatever the errors. -/
def dbAfter {σ ε : Type} (exec : σ → String → σ × Option ε) : σ → List String → σ
  | db, [] => db
  | db, stmt :: rest => dbAfter exec (exec db stmt).1 rest

/-- The error of the call of `Exec` on the statement at index `i` of `stmts`, made
in the state the statements before it have left. -/
def errorAt {σ ε : Type} (exec : σ → String → σ × Option ε) (db : σ) (stmts : List String)
    (i : Nat) : Option ε :=
  match stmts.get? i with
  | none => none
  | some stmt => (exec (dbAfter exec db (stmts.take i)) stmt).2

end Setup

namespace Repository

/-- `RepoPostgres.Setup` of the history-server repository. -/
def Setup {σ ε : Type} (exec : σ → String → σ × Option ε) (db : σ) : Setup.Run σ ε :=
  Setup.runStmts exec db setupStmts

end Repository

namespace EventCollector

/-- `RepoPostgres.Setup` of the event-collector repository. -/
def Setup {σ ε : Type} (exec : σ → String → σ × Option ε) (db : σ) : Setup.Run σ ε :=
  Setup.runStmts exec db setupStmts

end EventCollector

/-! ## The in-memory event repository

`repository.NewInMemoryEventRepository`, `Record` and `Counts` are called by
`internal/yunikorn/stream_test.go`; their source is not among the source files. -/

namespace EventRepository

/-- Modelled from the spec: the enumeration `si.EventRecord_Type` of the scheduler
interface is missing.  The specification names the event types by their canonical
strings; the test decodes the number 2 to `APP`. -/
inductive EventType
  | UNKNOWN_EVENTRECORD_TYPE | REQUEST | APP | NODE | QUEUE | USERGROUP
deriving DecidableEq, Repr

/-- Modelled from the spec: the enumeration `si.EventRecord_ChangeType` is missing.
The test decodes the number 2 to `ADD`. -/
inductive ChangeType
  | NONE | SET | ADD | REMOVE
deriving DecidableEq, Repr

/-- Modelled from the spec: the canonical string form of an event type. -/
def EventType.String : EventType → String
  | .UNKNOWN_EVENTRECORD_TYPE => "UNKNOWN_EVENTRECORD_TYPE"
  | .REQUEST => "REQUEST"
  | .APP => "APP"
  | .NODE => "NODE"
  | .QUEUE => "QUEUE"
  | .USERGROUP => "USERGROUP"

/-- Modelled from the spec: the canonical string form of a change type. -/
def ChangeType.String : ChangeType → String
  | .NONE => "NONE"
  | .SET => "SET"
  | .ADD => "ADD"
  | .REMOVE => "REMOVE"

/-- Modelled from the spec: the event record `si.EventRecord` is missing.  Only the
two enumerations count for the event repository; the payload is left out. -/
structure EventRecord where
  type : EventType
  eventChangeType : ChangeType
deriving DecidableEq, Repr

/-- Modelled from the spec: the key of an event, `"<Type>-<ChangeType>"` with the
canonical string form of each enumerant (section 4.1). -/
def key (ev : EventRecord) : String :=
  ev.type.String ++ "-" ++ ev.eventChangeType.String

/-- A Go `map[string]int`: the keys present with their values. -/
abbrev CountMap := List (String × Nat)

/-- Reading a Go map, `m[k]`: the value under `k`, zero when `k` is absent. -/
def CountMap.get (m : CountMap) (k : String) : Nat := (m.lookup k).getD 0

/-- The Go statement `m[k]++`. -/
def CountMap.incr : CountMap → String → CountMap
  | [], k => [(k, 1)]
  | (k1, n) :: rest, k =>
    if k1 = k then (k1, n + 1) :: rest else (k1, n) :: CountMap.incr rest k

/-- The memory of the process as far as the repository is concerned: the maps
allocated so far, a map's address being its index. -/
abbrev Heap := List CountMap

/-- Modelled from the spec: the in-memory event repository is missing.  It holds one
mapping from key to count (section 3); `eventCounts` is the address of that map. -/
structure InMemoryEventRepository where
  eventCounts : Nat
deriving DecidableEq, Repr

/-- The map stored at an address; an address never allocated reads as empty. -/
def Heap.read (h : Heap) (addr : Nat) : CountMap := h.getD addr []

/-- Modelled from the spec: `NewInMemoryEventRepository` is missing.  It allocates an
empty map. -/
def NewInMemoryEventRepository (h : Heap) : InMemoryEventRepository × Heap :=
  (⟨h.length⟩, h ++ [[]])

/-- Modelled from the spec: `Record` is missing.  Every record increments exactly one
key exactly once (section 3), in place and as one atomic step (section 4.1: no
read-modify-write race); it never fails on a decoded event. -/
def Record (repo : InMemoryEventRepository) (h : Heap) (ev : EventRecord) : Heap :=
  h.set repo.eventCounts ((h.read repo.eventCounts).incr (key ev))

/-- Modelled from the spec: `Counts` is missing.  A snapshot read returns a
point-in-time copy, never a live reference (section 3): it allocates a new map with
the contents of the repository's map and returns its address. -/
def Counts (repo : InMemoryEventRepository) (h : Heap) : Nat × Heap :=
  (h.length, h ++ [h.read repo.eventCounts])

/-- The calls `Record(ctx, ev)` for the events of a list, one after the other. -/
def recordAll (repo : InMemoryEventRepository) : Heap → List EventRecord → Heap
  | h, [] => h
  | h, ev :: evs => recordAll repo (Record repo h ev) evs

/-- How many events of a list have the key `k`. -/
def countKey (k : String) (evs : List EventRecord) : Nat :=
  (evs.filter fun ev => key ev = k).length

/-- The sequences of `Record` calls that concurrent producers can make.  Each
producer makes the calls of its own sequence in order; a call is one atomic step,
so a run of all producers is a sequence that, at each step, takes the next call of
some producer whose sequence is not finished. -/
inductive Interleaving : List (List EventRecord) → List EventRecord → Prop
  | done (producers : List (List EventRecord)) (h : ∀ p ∈ producers, p = []) :
      Interleaving producers []
  | step (producers : List (List EventRecord)) (i : Nat) (ev : EventRecord)
      (rest : List EventRecord) (run : List EventRecord)
      (h : producers.get? i = some (ev :: rest))
      (tail : Interleaving (producers.set i rest) run) :
      Interleaving producers (ev :: run)

end EventRepository

/-! ## The stream decoder and `Service.processStreamResponse`

`Service.processStreamResponse` is called by `internal/yunikorn/stream_test.go`; its
source is not among the source files.  The lines of the stream are JSON texts;
the reader below stands for the JSON decoder of the Go library. -/

namespace Json

/-- A JSON value.  A number keeps its text. -/
inductive Value
  | null
  | bool (b : Bool)
  | number (text : List Char)
  | string (s : List Char)
  | array (items : List Value)
  | object (members : List (List Char × Value))

/-- JSON whitespace. -/
def isWs (c : Char) : Bool := c = ' ' || c = '\t' || c = '\n' || c = '\r'

/-- Drops leading whitespace. -/
def skipWs : List Char → List Char
  | [] => []
  | c :: cs => if isWs c then skipWs cs else c :: cs

/-- The value of a hexadecimal digit. -/
def hexVal (c : Char) : Option Nat :=
  let n := c.toNat
  if 48 ≤ n && n ≤ 57 then some (n - 48)
  else if 97 ≤ n && n ≤ 102 then some (n - 87)
  else if 65 ≤ n && n ≤ 70 then some (n - 55)
  else none

/-- The character of the escape `\uXXXX`. -/
def hex4 (a b c d : Char) : Option Char :=
  match hexVal a, hexVal b, hexVal c, hexVal d with
  | some x, some y, some z, some w => some (Char.ofNat (((x * 16 + y) * 16 + z) * 16 + w))
  | _, _, _, _ => none

/-- The character a one-letter escape stands for. -/
def unescape (e : Char) : Option Char :=
  if e = '"' then some '"' else if e = '\\' then some '\\' else if e = '/' then some '/'
  else if e = 'b' then some (Char.ofNat 8) else if e = 'f' then some (Char.ofNat 12)
  else if e = 'n' then some '\n' else if e = 'r' then some '\r'
  else if e = 't' then some '\t' else none

/-- Reads a string after its opening quote: the text and what follows the closing
quote. -/
def parseString : List Char → Option (List Char × List Char)
  | [] => none
  | c :: rest =>
    if c = '"' then some ([], rest)
    else if c = '\\' then
      match rest with
      | [] => none
      | e :: rest1 =>
        if e = 'u' then
          match rest1 with
          | a :: b :: c2 :: d :: rest2 =>
            match hex4 a b c2 d with
            | none => none
            | some ch => (parseString rest2).map fun r => (ch :: r.1, r.2)
          | _ => none
        else
          match unescape e with
          | none => none
          | some ch => (parseString rest1).map fun r => (ch :: r.1, r.2)
    else if c.toNat < 32 then none
    else (parseString rest).map fun r => (c :: r.1, r.2)

/-- Whether the character is a decimal digit. -/
def isDigit (c : Char) : Bool := 48 ≤ c.toNat && c.toNat ≤ 57

/-- Whether the character can stand in a number. -/
def isNumberChar (c : Char) : Bool :=
  isDigit c || c = '-' || c = '+' || c = '.' || c = 'e' || c = 'E'

/-- Splits off the longest run of number characters. -/
def takeNumber : List Char → List Char × List Char
  | [] => ([], [])
  | c :: cs =>
    if isNumberChar c then ((c :: (takeNumber cs).1), (takeNumber cs).2) else ([], c :: cs)

/-- Drops leading digits. -/
def dropDigits : List Char → List Char
  | [] => []
  | c :: cs => if isDigit c then dropDigits cs else c :: cs

/-- Whether the text starts with a digit. -/
def startsWithDigit : List Char → Bool
  | [] => false
  | c :: _ => isDigit c

/-- The exponent part of a number, if any, reaching the end of the text. -/
def validExponent : List Char → Bool
  | [] => true
  | c :: cs =>
    (c = 'e' || c = 'E') &&
    match cs with
    | [] => false
    | s :: ds =>
      if s = '+' || s = '-' then startsWithDigit ds && (dropDigits ds).isEmpty
      else isDigit s && (dropDigits ds).isEmpty

/-- The fraction part of a number, if any, and the exponent part. -/
def validFraction : List Char → Bool
  | [] => true
  | c :: cs =>
    if c = '.' then startsWithDigit cs && validExponent (dropDigits cs)
    else validExponent (c :: cs)

/-- The integer part of a number (no leading zero) and the parts after it. -/
def validUnsigned : List Char → Bool
  | [] => false
  | c :: cs =>
    if c = '0' then validFraction cs
    else isDigit c && validFraction (dropDigits cs)

/-- Whether the text is a number of the JSON grammar. -/
def validNumber : List Char → Bool
  | [] => false
  | c :: cs => if c = '-' then validUnsigned cs else validUnsigned (c :: cs)

/-- Drops the characters of `lit` from the front of the text, if they are there. -/
def dropLiteral : List Char → List Char → Option (List Char)
  | [], cs => some cs
  | _ :: _, [] => none
  | l :: ls, c :: cs => if l = c then dropLiteral ls cs else none

mutual

/-- Reads one JSON value and returns it with the text that follows it.  `fuel`
bounds the depth of the calls; `parse` starts with twice the length of the text,
plus two. -/
def parseValue : Nat → List Char → Option (Value × List Char)
  | 0, _ => none
  | fuel + 1, cs =>
    match skipWs cs with
    | [] => none
    | c :: rest =>
      if c = '{' then
        match skipWs rest with
        | [] => none
        | d :: rest1 =>
          if d = '}' then some (Value.object [], rest1)
          else (parseMembers fuel (d :: rest1)).map fun r => (Value.object r.1, r.2)
      else if c = '[' then
        match skipWs rest with
        | [] => none
        | d :: rest1 =>
          if d = ']' then some (Value.array [], rest1)
          else (parseElements fuel (d :: rest1)).map fun r => (Value.array r.1, r.2)
      else if c = '"' then
        (parseString rest).map fun r => (Value.string r.1, r.2)
      else if c = 't' then
        (dropLiteral ['r', 'u', 'e'] rest).map fun r => (Value.bool true, r)
      else if c = 'f' then
        (dropLiteral ['a', 'l', 's', 'e'] rest).map fun r => (Value.bool false, r)
      else if c = 'n' then
        (dropLiteral ['u', 'l', 'l'] rest).map fun r => (Value.null, r)
      else
        let r := takeNumber (c :: rest)
        if validNumber r.1 then some (Value.number r.1, r.2) else none

/-- Reads the elements of an array up to and including the closing bracket. -/
def parseElements : Nat → List Char → Option (List Value × List Char)
  | 0, _ => none
  | fuel + 1, cs =>
    match parseValue fuel cs with
    | none => none
    | some (v, rest) =>
      match skipWs rest with
      | [] => none
      | c :: rest1 =>
        if c = ',' then (parseElements fuel rest1).map fun r => (v :: r.1, r.2)
        else if c = ']' then some ([v], rest1)
        else none

/-- Reads the members of an object up to and including the closing brace. -/
def parseMembers : Nat → List Char → Option (List (List Char × Value) × List Char)
  | 0, _ => none
  | fuel + 1, cs =>
    match skipWs cs with
    | [] => none
    | q :: rest =>
      if q = '"' then
        match parseString rest with
        | none => none
        | some (name, rest1) =>
          match skipWs rest1 with
          | [] => none
          | colon :: rest2 =>
            if colon = ':' then
              match parseValue fuel rest2 with
              | none => none
              | some (v, rest3) =>
                match skipWs rest3 with
                | [] => none
                | c :: rest4 =>
                  if c = ',' then (parseMembers fuel rest4).map fun r => ((name, v) :: r.1, r.2)
                  else if c = '}' then some ([(name, v)], rest4)
                  else none
            else none
      else none

end

/-- One whole JSON value, with nothing but whitespace around it. -/
def parse (text : List Char) : Option Value :=
  match parseValue (2 * text.length + 2) text with
  | none => none
  | some (v, rest) => if (skipWs rest).isEmpty then some v else none

/-- The number a run of decimal digits stands for, after the digits read so far. -/
def natOfDigits : List Char → Nat → Option Nat
  | [], acc => some acc
  | c :: cs, acc => if isDigit c then natOfDigits cs (acc * 10 + (c.toNat - 48)) else none

/-- The value of a number text without sign, fraction and exponent. -/
def natOfNumber (text : List Char) : Option Nat :=
  if text.isEmpty then none else natOfDigits text 0

/-! ### The encoder

The encoder stands for the JSON encoder of the Go library (the test writes its
events with `json.NewEncoder`): compact text, strings escaped. -/

/-- The exponent part of a JSON number: the letter (`e` or `E`), the sign, if any
(`some true` is minus), and the digits as a number. -/
structure Exponent where
  upper : Bool
  sign : Option Bool
  value : Nat

/-- A JSON number by its parts: the sign, the integer part, the digits of the
fraction (none when the number has no point) and the exponent. -/
structure Number where
  negative : Bool
  whole : Nat
  fraction : List (Fin 10)
  exponent : Option Exponent

/-- A JSON document, as an encoder is given it. -/
inductive Doc
  | null
  | bool (b : Bool)
  | number (n : Number)
  | string (s : List Char)
  | array (items : List Doc)
  | object (members : List (List Char × Doc))

/-- The text of the exponent part. -/
def Exponent.text (x : Exponent) : List Char :=
  (if x.upper then 'E' else 'e') ::
    ((match x.sign with
      | none => []
      | some true => ['-']
      | some false => ['+']) ++ Go.fmtInt [] x.value)

/-- The text of the fraction of a number: nothing, or the point and the digits. -/
def fractionText (f : List (Fin 10)) : List Char :=
  if f.isEmpty then [] else '.' :: f.map fun d => Go.digitChar d.val

/-- The text of the exponent of a number, if it has one. -/
def exponentText (x : Option Exponent) : List Char :=
  match x with
  | none => []
  | some x => x.text

/-- The text of a number: sign, integer part in decimal, fraction, exponent. -/
def Number.text (n : Number) : List Char :=
  (if n.negative then ['-'] else []) ++
    (Go.fmtInt [] n.whole ++ (fractionText n.fraction ++ exponentText n.exponent))

/-- What a JSON encoder writes for one character of a string: the quote, the
backslash and the control characters are escaped. -/
def escapeChar (c : Char) : List Char :=
  if c = '"' then ['\\', '"']
  else if c = '\\' then ['\\', '\\']
  else if c = '\n' then ['\\', 'n']
  else if c = '\r' then ['\\', 'r']
  else if c = '\t' then ['\\', 't']
  else if c = Char.ofNat 8 then ['\\', 'b']
  else if c = Char.ofNat 12 then ['\\', 'f']
  else if c.toNat < 32 then
    ['\\', 'u', '0', '0', Nat.digitChar (c.toNat / 16), Nat.digitChar (c.toNat % 16)]
  else [c]

/-- The encoding of a string, between double quotes. -/
def encodeString (s : List Char) : List Char :=
  '"' :: (s.flatMap escapeChar ++ ['"'])

mutual

/-- The compact JSON encoding of a document, without whitespace. -/
def encode : Doc → List Char
  | .null => ['n', 'u', 'l', 'l']
  | .bool true => ['t', 'r', 'u', 'e']
  | .bool false => ['f', 'a', 'l', 's', 'e']
  | .number n => n.text
  | .string s => encodeString s
  | .array [] => ['[', ']']
  | .array (v :: rest) => '[' :: encodeItems (v :: rest)
  | .object [] => ['{', '}']
  | .object (m :: rest) => '{' :: encodeMembers (m :: rest)

/-- The elements of a non-empty array, with the closing bracket. -/
def encodeItems : List Doc → List Char
  | [] => [']']
  | [v] => encode v ++ [']']
  | v :: w :: rest => encode v ++ ',' :: encodeItems (w :: rest)

/-- The members of a non-empty object, with the closing brace. -/
def encodeMembers : List (List Char × Doc) → List Char
  | [] => ['}']
  | [(k, v)] => encodeString k ++ ':' :: encode v ++ ['}']
  | (k, v) :: w :: rest => encodeString k ++ ':' :: encode v ++ ',' :: encodeMembers (w :: rest)

end

mutual

/-- The value a reader of the encoding is to find: the document with every number
as its text. -/
def toValue : Doc → Value
  | .null => .null
  | .bool b => .bool b
  | .number n => .number n.text
  | .string s => .string s
  | .array items => .array (toValues items)
  | .object members => .object (toMembers members)

/-- The values of the elements of an array. -/
def toValues : List Doc → List Value
  | [] => []
  | v :: rest => toValue v :: toValues rest

/-- The members of an object with their values. -/
def toMembers : List (List Char × Doc) → List (List Char × Value)
  | [] => []
  | (k, v) :: rest => (k, toValue v) :: toMembers rest

end

mutual

/-- The fuel that reading the encoding of a document takes. -/
def cost : Doc → Nat
  | .null => 1
  | .bool _ => 1
  | .number _ => 1
  | .string _ => 1
  | .array items => 1 + costItems items
  | .object members => 1 + costMembers members

/-- The fuel that reading the elements of an array takes. -/
def costItems : List Doc → Nat
  | [] => 0
  | v :: rest => 1 + cost v + costItems rest

/-- The fuel that reading the members of an object takes. -/
def costMembers : List (List Char × Doc) → Nat
  | [] => 0
  | (_, v) :: rest => 1 + cost v + costMembers rest

end

/-- A text is over or goes on with a character that is not a digit. -/
def NoDigitAhead (tail : List Char) : Prop := ∀ c cs, tail = c :: cs → isDigit c = false

/-- A text is over or goes on with a character that cannot stand in a number. -/
def Stops (rest : List Char) : Prop := ∀ c cs, rest = c :: cs → isNumberChar c = false

end Json

namespace Yunikorn

open EventRepository

/-- Modelled from the spec: the numbering of `si.EventRecord_Type` is missing; the
enumerants are numbered from zero in the order of their declaration (the test
decodes 2 to `APP`). -/
def eventTypes : List EventType :=
  [.UNKNOWN_EVENTRECORD_TYPE, .REQUEST, .APP, .NODE, .QUEUE, .USERGROUP]

/-- Modelled from the spec: the numbering of `si.EventRecord_ChangeType` is missing
(the test decodes 2 to `ADD`). -/
def changeTypes : List ChangeType := [.NONE, .SET, .ADD, .REMOVE]

/-- Modelled from the spec: a field of the event envelope, `<int|enum>` (section 6),
from the value found under its name: the number of an enumerant or its canonical
name.  A field that is absent leaves the first enumerant, as when decoding JSON
into a Go struct. -/
def enumValue {α : Type} (all : List α) (name : α → String) (field : String)
    (value : Option Json.Value) : Except String α :=
  match value with
  | none =>
    match all.head? with
    | some a => .ok a
    | none => .error ("no value for field " ++ field)
  | some (Json.Value.number text) =>
    match (Json.natOfNumber text).bind fun n => all.get? n with
    | some a => .ok a
    | none => .error ("cannot unmarshal number into field " ++ field)
  | some (Json.Value.string s) =>
    match all.find? fun a => (name a).data = s with
    | some a => .ok a
    | none => .error ("unknown value for field " ++ field)
  | some _ => .error ("cannot unmarshal value into field " ++ field)

/-- Modelled from the spec: the field `field` of the members of an envelope. -/
def enumField {α : Type} (all : List α) (name : α → String) (field : String)
    (members : List (List Char × Json.Value)) : Except String α :=
  enumValue all name field (members.lookup field.data)

/-- Modelled from the spec: decoding one line of the event stream is missing.  A line
holds one JSON object matching `{"type": <int|enum>, "eventChangeType":
<int|enum>, ...domain fields}` (section 6); malformed JSON and JSON that does not
match the envelope fail (section 4.2). -/
def decodeEvent (line : List Char) : Except String EventRecord :=
  match Json.parse line with
  | none => .error "invalid JSON"
  | some (Json.Value.object members) =>
    match enumField eventTypes EventType.String "type" members with
    | .error e => .error e
    | .ok t =>
      match enumField changeTypes ChangeType.String "eventChangeType" members with
      | .error e => .error e
      | .ok c => .ok ⟨t, c⟩
  | some _ => .error "cannot unmarshal value into event record"

/-- Modelled from the spec: the position of an enumerant in its enumeration, the
number the stream carries for it. -/
def enumNumber {α : Type} [BEq α] (all : List α) (a : α) : Nat := all.indexOf a

/-- Modelled from the spec: the two forms of an enumeration field, `<int|enum>`
(section 6). -/
inductive EnumForm
  | number
  | name
deriving DecidableEq, Repr

/-- Modelled from the spec: an event envelope as the scheduler sends it (section 6):
the record, the form in which each enumeration field is written, whether a field
holding the first enumerant is left out (Go's `omitempty`), and the domain
fields before, between and after the two enumeration fields. -/
structure Envelope where
  record : EventRecord
  typeForm : EnumForm
  changeForm : EnumForm
  omitEmpty : Bool
  before : List (List Char × Json.Doc)
  between : List (List Char × Json.Doc)
  after : List (List Char × Json.Doc)

/-- Modelled from the spec: the member of the envelope for an enumeration field, or
no member when the field is left out. -/
def enumMember {α : Type} [BEq α] (all : List α) (name : α → String) (field : String)
    (form : EnumForm) (omitEmpty : Bool) (a : α) : List (List Char × Json.Doc) :=
  if omitEmpty && enumNumber all a == 0 then []
  else
    [(field.data,
      match form with
      | .number => Json.Doc.number ⟨false, enumNumber all a, [], none⟩
      | .name => Json.Doc.string (name a).data)]

/-- Modelled from the spec: the JSON object of an envelope. -/
def Envelope.doc (e : Envelope) : Json.Doc :=
  .object (e.before ++
    (enumMember eventTypes EventType.String "type" e.typeForm e.omitEmpty e.record.type ++
      (e.between ++
        (enumMember changeTypes ChangeType.String "eventChangeType" e.changeForm e.omitEmpty
            e.record.eventChangeType ++
          e.after))))

/-- Modelled from the spec: the JSON encoding of an envelope, one line of the
stream without its newline. -/
def Envelope.encode (e : Envelope) : List Char := Json.encode e.doc

/-- Modelled from the spec: an envelope is well formed when no domain field bears the
name of one of the two enumeration fields. -/
def Envelope.wellFormed (e : Envelope) : Bool :=
  (e.before ++ (e.between ++ e.after)).all fun m =>
    m.1 != "type".data && m.1 != "eventChangeType".data

/-- Modelled from the spec: the text of a buffer between newlines, and the text after
the last newline (section 4.2: the buffer may end mid-record). -/
def splitLines : List Char → List (List Char) × List Char
  | [] => ([], [])
  | c :: cs =>
    let r := splitLines cs
    if c = '\n' then ([] :: r.1, r.2)
    else
      match r.1 with
      | [] => ([], c :: r.2)
      | l :: ls => ((c :: l) :: ls, r.2)

/-- Modelled from the spec: the fragments of the input that `processStreamResponse`
decodes: every newline-terminated line and, when the input does not end in a
newline, the text after the last newline (section 8: a truncated record without
closing brace or newline fails with a decode error). -/
def lines (input : List Char) : List (List Char) :=
  (splitLines input).1 ++
    (if (splitLines input).2.isEmpty then [] else [(splitLines input).2])

/-- Modelled from the spec: the error of one record is missing.  A decode error
carries the offending fragment (section 4.2); the test expects its message to
contain `could not unmarshal event from stream`. -/
inductive StreamError
  | decode (message : String) (fragment : List Char)
  | handler (message : String)
deriving DecidableEq, Repr

/-- The message of the error of one record. -/
def StreamError.message : StreamError → String
  | .decode message _ => message
  | .handler message => message

/-- Modelled from the spec: the loop of the dispatcher over the fragments of one
buffer (sections 4.4 and 7): for each decoded record, `Record` on the event
repository, then the injected handler.  A fragment that does not decode and a
handler that fails are reported and isolated to that record: the loop goes on
with the next fragment.  Returns the errors in the order of the fragments. -/
def processLines (handler : EventRecord → Option String) (repo : InMemoryEventRepository) :
    Heap → List (List Char) → List StreamError × Heap
  | h, [] => ([], h)
  | h, line :: rest =>
    match decodeEvent line with
    | .error e =>
      let r := processLines handler repo h rest
      (.decode ("could not unmarshal event from stream: " ++ e) line :: r.1, r.2)
    | .ok ev =>
      let r := processLines handler repo (Record repo h ev) rest
      match handler ev with
      | some e => (.handler e :: r.1, r.2)
      | none => r

/-- Modelled from the spec: `Service.processStreamResponse` is missing.  It takes the
bytes read from the stream, decodes each fragment and dispatches each record.
The result stands for the Go error: the errors of the records joined, the empty
list being `nil`. -/
def processStreamResponse (handler : EventRecord → Option String)
    (repo : InMemoryEventRepository) (h : Heap) (input : List Char) :
    List StreamError × Heap :=
  processLines handler repo h (lines input)

/-- The text of the joined error, as Go's `errors.Join` builds it: the messages of
the errors, one per line. -/
def errorText (errs : List StreamError) : String :=
  "\n".intercalate (errs.map StreamError.message)

/-- Three envelopes as the scheduler may send them: an APP/ADD record with domain
fields (a string with a quote and a newline, a nested object with a fractional
number, an array), a record of the first enumerants with both fields left out,
and an APP/SET record with its fields written as names. -/
def sampleEnvelopes : List Envelope :=
  [ ⟨⟨.APP, .ADD⟩, .number, .number, true, [],
      [("objectID".data, .string "app-\"1\"\n".data)],
      [("resource".data,
          .object [("memory".data, .number ⟨false, 1024, [5], some ⟨false, some false, 3⟩⟩)]),
        ("tags".data, .array [.bool true, .null, .number ⟨true, 0, [], none⟩])]⟩,
    ⟨⟨.UNKNOWN_EVENTRECORD_TYPE, .NONE⟩, .number, .number, true, [], [], []⟩,
    ⟨⟨.APP, .SET⟩, .name, .name, false, [("timestampNano".data, .null)], [], []⟩ ]

/-- An input with a valid line, the malformed line of the stream test and a valid
record after the last newline. -/
def sampleInput : List Char :=
  ("\x7b\"type\": 2, \"eventChangeType\": 2\x7d\n" ++
    "\x7b\"type\": 2, \"eventChangeType\": 2\n" ++
    "\x7b\"type\": 2, \"eventChangeType\": 1\x7d").data

/-- The handler of the test: `noopEventHandler` returns `nil`. -/
def noopEventHandler (_ev : EventRecord) : Option String := none

/-- The events of the fragments that decode, in order. -/
def okEvents (fragments : List (List Char)) : List EventRecord :=
  fragments.filterMap fun l =>
    match decodeEvent l with
    | .ok ev => some ev
    | .error _ => none

/-- The decode errors of the fragments that do not decode, in order. -/
def decodeErrors (fragments : List (List Char)) : List StreamError :=
  fragments.filterMap fun l =>
    match decodeEvent l with
    | .ok _ => none
    | .error e => some (.decode ("could not unmarshal event from stream: " ++ e) l)

end Yunikorn

/-! ## Reading a quoted value of the connection descriptor -/

namespace Descriptor

/-- How reading a quoted value ended. -/
inductive ReadResult
  | closed (value : List Char) (rest : List Char)
  | ended (value : List Char)
  | dangling (value : List Char)
deriving DecidableEq, Repr

/-- Puts a character in front of the value read. -/
def ReadResult.cons (c : Char) : ReadResult → ReadResult
  | .closed v rest => .closed (c :: v) rest
  | .ended v => .ended (c :: v)
  | .dangling v => .dangling (c :: v)

/-- The quoted-value rule of the connection descriptor, on the text after the
opening quote: a backslash makes the next character literal, an unescaped single
quote ends the value (`closed`, with the text after the quote).  `ended` means
that the text is over without a terminating quote, `dangling` that it is over
right after a backslash. -/
def readQuoted : List Char → ReadResult
  | [] => .ended []
  | c :: cs =>
    if c = '\'' then .closed [] cs
    else if c = '\\' then
      match cs with
      | [] => .dangling []
      | d :: ds => (readQuoted ds).cons d
    else (readQuoted cs).cons c

/-- A setting name: lower-case letters and underscores, at least one. -/
def isKeyword (k : String) : Bool :=
  !k.data.isEmpty && k.data.all fun c => c.isLower || c = '_'

/-- A character that is neither the single quote nor the backslash. -/
def Plain (c : Char) : Prop := c ≠ '\'' ∧ c ≠ '\\'

/-- One setting of the descriptor, `key='value'`. -/
def setting (kv : String × String) : String := kv.1 ++ "='" ++ kv.2 ++ "'"

/-- Where the reader of a connection descriptor stands: in a setting name, inside
the quotes of a value, right after a backslash inside the quotes, or right after
the closing quote of a value. -/
inductive Mode
  | name (key : List Char)
  | value (key : List Char) (text : List Char)
  | escaped (key : List Char) (text : List Char)
  | closed

/-- Reads a connection descriptor in keyword/value form with quoted values,
`key='value' key='value'`: settings are separated by blanks, a value stands
between single quotes, a backslash in it makes the next character literal and an
unescaped single quote ends it.  Returns the settings with their values as
read, or `none` when the text is not of that form. -/
def scan : Mode → List Char → Option (List (String × String))
  | .name key, [] => if key.isEmpty then some [] else none
  | .name key, c :: cs =>
    if c = ' ' then (if key.isEmpty then scan (.name []) cs else none)
    else if c = '=' then
      match cs with
      | [] => none
      | q :: cs1 => if q = '\'' && !key.isEmpty then scan (.value key []) cs1 else none
    else scan (.name (key ++ [c])) cs
  | .value _ _, [] => none
  | .value key text, c :: cs =>
    if c = '\\' then scan (.escaped key text) cs
    else if c = '\'' then (scan .closed cs).map fun l => (String.mk key, String.mk text) :: l
    else scan (.value key (text ++ [c])) cs
  | .escaped _ _, [] => none
  | .escaped key text, c :: cs => scan (.value key (text ++ [c])) cs
  | .closed, [] => some []
  | .closed, c :: cs => if c = ' ' then scan (.name []) cs else none

/-- The settings of a connection descriptor, read from its start. -/
def parseDescriptor (descriptor : String) : Option (List (String × String)) :=
  scan (.name []) descriptor.data

/-- A text that the reader takes for a setting name: not empty, without a blank and
without an equals sign. -/
def isName (k : String) : Bool :=
  !k.data.isEmpty && k.data.all fun c => c != ' ' && c != '='

end Descriptor

namespace Repository

/-- The settings of a configuration as triples: the setting name, the text
`CreateConnectionString` writes between the quotes, and the value itself (the
configured string, or the printed number or duration). -/
def fields (cfg : PostgresConfig) : List (String × String × String) :=
  [ ("host", Go.replacerReplace cfg.Host, cfg.Host),
    ("port", Go.sprintD cfg.Port, Go.sprintD cfg.Port),
    ("user", Go.replacerReplace cfg.Username, cfg.Username),
    ("password", Go.replacerReplace cfg.Password, cfg.Password),
    ("dbname", Go.replacerReplace cfg.DbName, cfg.DbName) ] ++
  (if cfg.PoolMaxConns > 0 then
    [("pool_max_conns", Go.sprintD cfg.PoolMaxConns, Go.sprintD cfg.PoolMaxConns)] else []) ++
  (if cfg.PoolMinConns > 0 then
    [("pool_min_conns", Go.sprintD cfg.PoolMinConns, Go.sprintD cfg.PoolMinConns)] else []) ++
  (if cfg.PoolMaxConnLifetime > 0 then
    [("pool_max_conn_lifetime", Go.durationString cfg.PoolMaxConnLifetime,
      Go.durationString cfg.PoolMaxConnLifetime)] else []) ++
  (if cfg.PoolMaxConnIdleTime > 0 then
    [("pool_man_conn_idle_time", Go.durationString cfg.PoolMaxConnIdleTime,
      Go.durationString cfg.PoolMaxConnIdleTime)] else [])

end Repository

namespace Setup

/-- What the specification asks of a run `r` of `Setup` over `stmts` from the state
`db`: the statements executed are the listed ones, in order and once each, up to
and including the first one that fails; the run panics with the error of that
statement and executes nothing after it; it returns normally exactly when no
statement fails, and then every statement was executed. -/
def FatalOnFirstError {σ ε : Type} (exec : σ → String → σ × Option ε) (db : σ)
    (stmts : List String) (r : Run σ ε) : Prop :=
  r.executed <+: stmts ∧
  (r.panicked = none ↔ ∀ i, i < stmts.length → errorAt exec db stmts i = none) ∧
  (r.panicked = none → r.executed = stmts ∧ r.db = dbAfter exec db stmts) ∧
  (∀ e, r.panicked = some e →
    ∃ i, i < stmts.length ∧ (∀ j, j < i → errorAt exec db stmts j = none) ∧
      errorAt exec db stmts i = some e ∧ r.executed = stmts.take (i + 1) ∧
      r.db = dbAfter exec db (stmts.take (i + 1)))

end Setup

namespace EventRepository

/-- The events one producer of `TestEventRepositorySafety` records: 200 rounds of
APP/ADD, APP/ADD, APP/SET. -/
def producerEvents : List EventRecord :=
  (List.replicate 200 [⟨.APP, .ADD⟩, ⟨.APP, .ADD⟩, ⟨.APP, .SET⟩]).flatten

/-- The map a call `Counts(ctx)` made in the heap `h` returns, read right after the
call. -/
def countsOf (repo : InMemoryEventRepository) (h : Heap) : CountMap :=
  Heap.read (Counts repo h).2 (Counts repo h).1

end EventRepository

/-! # Properties -/

/-! ## Escaping and the connection descriptor -/

namespace Descriptor

theorem readQuoted_backslash (d : Char) (ds : List Char) :
    readQuoted ('\\' :: d :: ds) = (readQuoted ds).cons d := by
  rw [readQuoted.eq_def]
  simp

theorem readQuoted_other (c : Char) (cs : List Char) (hq : c ≠ '\'') (hb : c ≠ '\\') :
    readQuoted (c :: cs) = (readQuoted cs).cons c := by
  rw [readQuoted.eq_def]
  simp [hq, hb]

theorem readQuoted_flatMap_replaceByte (v : List Char) :
    readQuoted (v.flatMap Go.replaceByte) = .ended v := by
  induction v with
  | nil => rfl
  | cons c cs ih =>
    by_cases hb : c = '\\'
    · subst hb
      have : Go.replaceByte '\\' = ['\\', '\\'] := by decide
      rw [List.flatMap_cons, this, List.cons_append, List.cons_append, List.nil_append,
        readQuoted_backslash, ih]
      rfl
    · by_cases hq : c = '\''
      · subst hq
        have : Go.replaceByte '\'' = ['\\', '\''] := by decide
        rw [List.flatMap_cons, this, List.cons_append, List.cons_append, List.nil_append,
          readQuoted_backslash, ih]
        rfl
      · have : Go.replaceByte c = [c] := by simp [Go.replaceByte, hb, hq]
        rw [List.flatMap_cons, this, List.cons_append, List.nil_append,
          readQuoted_other c _ hq hb, ih]
        rfl

theorem readQuoted_plain (l : List Char) (h : ∀ c ∈ l, Plain c) :
    readQuoted l = .ended l := by
  induction l with
  | nil => rfl
  | cons c cs ih =>
    have hc := h c (List.mem_cons_self _ _)
    rw [readQuoted_other c cs hc.1 hc.2, ih fun d hd => h d (List.mem_cons_of_mem _ hd)]
    rfl

end Descriptor

namespace Go

open Descriptor

theorem plain_digitChar (d : Nat) : Plain (digitChar d) := by
  unfold digitChar
  split <;> exact ⟨by decide, by decide⟩

theorem fmtIntLoop_plain (fuel v : Nat) (buf : List Char) (h : ∀ c ∈ buf, Plain c) :
    ∀ c ∈ fmtIntLoop fuel v buf, Plain c := by
  induction fuel generalizing v buf with
  | zero => simpa [fmtIntLoop] using h
  | succ n ih =>
    unfold fmtIntLoop
    split
    · apply ih
      intro c hc
      rcases List.mem_cons.1 hc with rfl | hc
      · exact plain_digitChar _
      · exact h c hc
    · exact h

theorem fmtInt_plain (buf : List Char) (v : Nat) (h : ∀ c ∈ buf, Plain c) :
    ∀ c ∈ fmtInt buf v, Plain c := by
  unfold fmtInt
  split
  · intro c hc
    rcases List.mem_cons.1 hc with rfl | hc
    · exact ⟨by decide, by decide⟩
    · exact h c hc
  · exact fmtIntLoop_plain _ _ _ h

theorem fmtFracLoop_plain (prec v : Nat) (print : Bool) (buf : List Char)
    (h : ∀ c ∈ buf, Plain c) : ∀ c ∈ (fmtFracLoop prec v print buf).1, Plain c := by
  induction prec generalizing v print buf with
  | zero => simpa [fmtFracLoop] using h
  | succ n ih =>
    unfold fmtFracLoop
    apply ih
    intro c hc
    split at hc
    · rcases List.mem_cons.1 hc with rfl | hc
      · exact plain_digitChar _
      · exact h c hc
    · exact h c hc

theorem fmtFrac_plain (buf : List Char) (v prec : Nat) (h : ∀ c ∈ buf, Plain c) :
    ∀ c ∈ (fmtFrac buf v prec).1, Plain c := by
  unfold fmtFrac
  intro c hc
  simp only at hc
  split at hc
  · rcases List.mem_cons.1 hc with rfl | hc
    · exact ⟨by decide, by decide⟩
    · exact fmtFracLoop_plain _ _ _ _ h c hc
  · exact fmtFracLoop_plain _ _ _ _ h c hc

theorem plain_of_mem_literal {l : List Char} (hl : l.all (fun c => c != '\'' && c != '\\') = true) :
    ∀ c ∈ l, Plain c := by
  intro c hc
  have := List.all_eq_true.1 hl c hc
  simp only [Bool.and_eq_true, bne_iff_ne, ne_eq] at this
  exact this

theorem formatMagnitude_plain (u : Nat) : ∀ c ∈ formatMagnitude u, Plain c := by
  unfold formatMagnitude
  have hm : ∀ (buf : List Char), (∀ c ∈ buf, Plain c) → ∀ c ∈ ('m' :: buf), Plain c := by
    intro buf hb c hc
    rcases List.mem_cons.1 hc with rfl | hc
    · exact ⟨by decide, by decide⟩
    · exact hb c hc
  have hh : ∀ (buf : List Char), (∀ c ∈ buf, Plain c) → ∀ c ∈ ('h' :: buf), Plain c := by
    intro buf hb c hc
    rcases List.mem_cons.1 hc with rfl | hc
    · exact ⟨by decide, by decide⟩
    · exact hb c hc
  split
  · split
    · exact plain_of_mem_literal (by decide)
    · split
      · exact fmtInt_plain _ _ (fmtFrac_plain _ _ _ (plain_of_mem_literal (by decide)))
      · split
        · exact fmtInt_plain _ _ (fmtFrac_plain _ _ _ (plain_of_mem_literal (by decide)))
        · exact fmtInt_plain _ _ (fmtFrac_plain _ _ _ (plain_of_mem_literal (by decide)))
  · have h0 := fmtInt_plain _ ((fmtFrac ['s'] u 9).2 % 60)
      (fmtFrac_plain ['s'] u 9 (plain_of_mem_literal (by decide)))
    simp only
    split
    · split
      · exact fmtInt_plain _ _ (hh _ (fmtInt_plain _ _ (hm _ h0)))
      · exact fmtInt_plain _ _ (hm _ h0)
    · exact h0

theorem durationString_plain (d : Int) : ∀ c ∈ (durationString d).data, Plain c := by
  unfold durationString
  simp only
  split
  · intro c hc
    rcases List.mem_cons.1 hc with rfl | hc
    · exact ⟨by decide, by decide⟩
    · exact formatMagnitude_plain _ c hc
  · exact formatMagnitude_plain _

theorem sprintD_plain (n : Int) : ∀ c ∈ (sprintD n).data, Plain c := by
  unfold sprintD
  simp only
  split
  · intro c hc
    rcases List.mem_cons.1 hc with rfl | hc
    · exact ⟨by decide, by decide⟩
    · exact fmtInt_plain _ _ (by simp) c hc
  · exact fmtInt_plain _ _ (by simp)

end Go

namespace Go

theorem digitChar_eq (d : Nat) : digitChar d = Nat.digitChar (d % 10) := by
  have h : d % 10 < 10 := Nat.mod_lt _ (by decide)
  unfold digitChar
  interval_cases (d % 10) <;> rfl

theorem fmtIntLoop_eq_toDigitsCore (v : Nat) :
    ∀ (f1 f2 : Nat) (buf : List Char), 0 < v → v < f1 → v ≤ f2 →
      fmtIntLoop f2 v buf = Nat.toDigitsCore 10 f1 v buf := by
  induction v using Nat.strong_induction_on with
  | _ v ih =>
    intro f1 f2 buf hv h1 h2
    obtain ⟨g1, rfl⟩ : ∃ k, f1 = k + 1 := ⟨f1 - 1, by omega⟩
    obtain ⟨g2, rfl⟩ : ∃ k, f2 = k + 1 := ⟨f2 - 1, by omega⟩
    rw [fmtIntLoop, Nat.toDigitsCore]
    simp only [hv, if_true, gt_iff_lt]
    rw [digitChar_eq, Nat.mod_mod]
    by_cases h0 : v / 10 = 0
    · rw [if_pos h0, h0]
      cases g2 <;> simp [fmtIntLoop]
    · rw [if_neg h0]
      have hlt : v / 10 < v := Nat.div_lt_self hv (by decide)
      exact ih (v / 10) hlt g1 g2 _ (by omega) (by omega) (by omega)

/-- The text `fmtInt` writes is the decimal form of the number. -/
theorem fmtInt_nil_eq_toDigits (v : Nat) : fmtInt [] v = Nat.toDigits 10 v := by
  unfold fmtInt Nat.toDigits
  split
  · next h => subst h; rfl
  · next h => exact fmtIntLoop_eq_toDigitsCore v (v + 1) v [] (by omega) (by omega) (by omega)

/-- The verb `%d` writes the decimal form of the integer. -/
theorem sprintD_eq_toString (n : Int) : sprintD n = toString n := by
  cases n with
  | ofNat m =>
    have h : ¬ (Int.ofNat m < 0) := by simp
    simp only [sprintD, h, if_false, Int.natAbs_ofNat, fmtInt_nil_eq_toDigits]
    rfl
  | negSucc m =>
    have h : Int.negSucc m < 0 := Int.negSucc_lt_zero m
    simp only [sprintD, h, if_true, Int.natAbs_negSucc, fmtInt_nil_eq_toDigits]
    rfl

end Go

/-! ## Reading the descriptor back -/

namespace Descriptor

theorem scan_name_other (pre : List Char) (c : Char) (cs : List Char) (h1 : c ≠ ' ')
    (h2 : c ≠ '=') : scan (.name pre) (c :: cs) = scan (.name (pre ++ [c])) cs := by
  rw [scan.eq_def]
  simp [h1, h2]

theorem scan_name_equals (pre : List Char) (cs : List Char) (hpre : pre.isEmpty = false) :
    scan (.name pre) ('=' :: '\'' :: cs) = scan (.value pre []) cs := by
  rw [scan.eq_def]
  simp [hpre]

theorem scan_value_backslash (k t : List Char) (d : Char) (cs : List Char) :
    scan (.value k t) ('\\' :: d :: cs) = scan (.value k (t ++ [d])) cs := by
  rw [scan.eq_def]
  simp only [if_true]
  rw [scan.eq_def]

theorem scan_value_quote (k t : List Char) (cs : List Char) :
    scan (.value k t) ('\'' :: cs) =
      (scan .closed cs).map fun l => (String.mk k, String.mk t) :: l := by
  rw [scan.eq_def]
  simp

theorem scan_value_other (k t : List Char) (c : Char) (cs : List Char) (hq : c ≠ '\'')
    (hb : c ≠ '\\') : scan (.value k t) (c :: cs) = scan (.value k (t ++ [c])) cs := by
  rw [scan.eq_def]
  simp [hq, hb]

theorem scan_closed_blank (cs : List Char) : scan .closed (' ' :: cs) = scan (.name []) cs := by
  rw [scan.eq_def]
  simp

theorem scan_name_run (k : List Char) (hk : ∀ c ∈ k, c ≠ ' ' ∧ c ≠ '=') :
    ∀ pre rest : List Char, scan (.name pre) (k ++ rest) = scan (.name (pre ++ k)) rest := by
  induction k with
  | nil => intro pre rest; simp
  | cons c cs ih =>
    intro pre rest
    have hc := hk c (List.mem_cons_self _ _)
    rw [List.cons_append, scan_name_other pre c _ hc.1 hc.2,
      ih (fun d hd => hk d (List.mem_cons_of_mem _ hd)), List.append_assoc, List.singleton_append]

theorem cons_eq_ended (r : ReadResult) (d : Char) (v : List Char)
    (h : r.cons d = .ended v) : ∃ w, r = .ended w ∧ v = d :: w := by
  cases r with
  | closed a b => simp [ReadResult.cons] at h
  | ended w => exact ⟨w, rfl, by simpa [ReadResult.cons] using h.symm⟩
  | dangling a => simp [ReadResult.cons] at h

/-- A text that the quoted-value rule reads to its end as `v` is, inside the quotes
of a descriptor, read as the value `v`, and the reader goes on after the closing
quote. -/
theorem scan_value_run (n : Nat) :
    ∀ (t v : List Char), t.length = n → readQuoted t = .ended v →
      ∀ (k w rest : List Char), scan (.value k w) (t ++ '\'' :: rest) =
        (scan .closed rest).map fun l => (String.mk k, String.mk (w ++ v)) :: l := by
  induction n using Nat.strong_induction_on with
  | _ n ih =>
    intro t v hlen hread k w rest
    cases t with
    | nil =>
      have hv : v = [] := by
        have : ReadResult.ended [] = ReadResult.ended v := hread
        simpa using this.symm
      subst hv
      rw [List.nil_append, scan_value_quote, List.append_nil]
    | cons c cs =>
      by_cases hq : c = '\''
      · subst hq
        rw [readQuoted.eq_def] at hread
        simp at hread
      · by_cases hb : c = '\\'
        · subst hb
          cases cs with
          | nil =>
            rw [readQuoted.eq_def] at hread
            simp at hread
          | cons d ds =>
            rw [readQuoted_backslash] at hread
            obtain ⟨u, hu, rfl⟩ := cons_eq_ended _ _ _ hread
            rw [List.cons_append, List.cons_append, scan_value_backslash,
              ih ds.length (by simp only [List.length_cons] at hlen; omega) ds u rfl hu,
              List.append_assoc, List.singleton_append]
        · rw [readQuoted_other c cs hq hb] at hread
          obtain ⟨u, hu, rfl⟩ := cons_eq_ended _ _ _ hread
          rw [List.cons_append, scan_value_other k w c _ hq hb,
            ih cs.length (by simp only [List.length_cons] at hlen; omega) cs u rfl hu,
            List.append_assoc, List.singleton_append]

theorem setting_data (k t : String) :
    (k ++ "='" ++ t ++ "'").data = k.data ++ '=' :: '\'' :: (t.data ++ ['\'']) := by
  simp only [String.data_append, List.append_assoc]
  rfl

/-- One setting `key='text'` at the start of a setting name is read as the key with
the value of the text. -/
theorem scan_setting (k t v : String) (hk : isName k = true)
    (hread : readQuoted t.data = .ended v.data) (rest : List Char) :
    scan (.name []) ((k ++ "='" ++ t ++ "'").data ++ rest) =
      (scan .closed rest).map fun l => (k, v) :: l := by
  unfold isName at hk
  rw [Bool.and_eq_true, List.all_eq_true] at hk
  have hchars : ∀ c ∈ k.data, c ≠ ' ' ∧ c ≠ '=' := by
    intro c hc
    have := hk.2 c hc
    simpa using this
  have hne : k.data.isEmpty = false := by simpa using hk.1
  rw [setting_data, List.append_assoc, scan_name_run k.data hchars, List.nil_append,
    List.cons_append, List.cons_append, scan_name_equals _ _ hne, List.append_assoc,
    List.singleton_append,
    scan_value_run t.data.length t.data v.data rfl hread, List.nil_append]

theorem intercalate_go_data (l : List String) :
    ∀ acc : String, (String.intercalate.go acc " " l).data =
      acc.data ++ l.flatMap fun a => ' ' :: a.data := by
  induction l with
  | nil => intro acc; simp [String.intercalate.go]
  | cons a rest ih =>
    intro acc
    rw [String.intercalate.go, ih]
    simp only [String.data_append, List.append_assoc, List.flatMap_cons]
    rfl

/-- A descriptor made of settings `key='text'` joined by single blanks reads back as
the keys with the values of the texts. -/
theorem scan_closed_settings (items : List (String × String × String))
    (h : ∀ it ∈ items, isName it.1 = true ∧ readQuoted it.2.1.data = .ended it.2.2.data) :
    scan .closed (items.flatMap fun it => ' ' :: (it.1 ++ "='" ++ it.2.1 ++ "'").data) =
      some (items.map fun it => (it.1, it.2.2)) := by
  induction items with
  | nil => rfl
  | cons it rest ih =>
    have h1 := h it (List.mem_cons_self _ _)
    have h2 := ih fun x hx => h x (List.mem_cons_of_mem _ hx)
    rw [List.flatMap_cons, List.cons_append, scan_closed_blank,
      scan_setting it.1 it.2.1 it.2.2 h1.1 h1.2, h2]
    rfl

theorem parseDescriptor_join (items : List (String × String × String))
    (h : ∀ it ∈ items, isName it.1 = true ∧ readQuoted it.2.1.data = .ended it.2.2.data) :
    parseDescriptor (" ".intercalate (items.map fun it => it.1 ++ "='" ++ it.2.1 ++ "'")) =
      some (items.map fun it => (it.1, it.2.2)) := by
  cases items with
  | nil => rfl
  | cons it rest =>
    have h1 := h it (List.mem_cons_self _ _)
    have h2 := scan_closed_settings rest fun x hx => h x (List.mem_cons_of_mem _ hx)
    rw [parseDescriptor, List.map_cons, String.intercalate, intercalate_go_data,
      List.flatMap_map, scan_setting it.1 it.2.1 it.2.2 h1.1 h1.2, h2]
    rfl

end Descriptor

namespace Repository

open Descriptor

theorem connectionPairs_eq_fields (cfg : PostgresConfig) :
    connectionPairs cfg = (fields cfg).map fun it => it.1 ++ "='" ++ it.2.1 ++ "'" := by
  unfold connectionPairs fields basePairs
  simp only
  split_ifs <;> rfl

theorem fields_keyword (cfg : PostgresConfig) :
    ∀ it ∈ fields cfg, isKeyword it.1 = true ∧ isName it.1 = true ∧
      readQuoted it.2.1.data = .ended it.2.2.data := by
  have hr : ∀ s : String, readQuoted (Go.replacerReplace s).data = .ended s.data :=
    fun s => readQuoted_flatMap_replaceByte s.data
  have hd : ∀ n : Int, readQuoted (Go.sprintD n).data = .ended (Go.sprintD n).data :=
    fun n => readQuoted_plain _ (Go.sprintD_plain n)
  have ht : ∀ n : Int,
      readQuoted (Go.durationString n).data = .ended (Go.durationString n).data :=
    fun n => readQuoted_plain _ (Go.durationString_plain n)
  intro it hit
  unfold fields at hit
  simp only [List.mem_append, List.mem_cons, List.mem_singleton, List.not_mem_nil, or_false] at hit
  rcases hit with ((((h | h | h | h | h) | h) | h) | h) | h
  · subst h; exact ⟨rfl, rfl, hr _⟩
  · subst h; exact ⟨rfl, rfl, hd _⟩
  · subst h; exact ⟨rfl, rfl, hr _⟩
  · subst h; exact ⟨rfl, rfl, hr _⟩
  · subst h; exact ⟨rfl, rfl, hr _⟩
  · split at h
    · rw [List.mem_singleton] at h; subst h; exact ⟨rfl, rfl, hd _⟩
    · exact absurd h (List.not_mem_nil _)
  · split at h
    · rw [List.mem_singleton] at h; subst h; exact ⟨rfl, rfl, hd _⟩
    · exact absurd h (List.not_mem_nil _)
  · split at h
    · rw [List.mem_singleton] at h; subst h; exact ⟨rfl, rfl, ht _⟩
    · exact absurd h (List.not_mem_nil _)
  · split at h
    · rw [List.mem_singleton] at h; subst h; exact ⟨rfl, rfl, ht _⟩
    · exact absurd h (List.not_mem_nil _)

theorem fields_wellformed (cfg : PostgresConfig) :
    ∀ it ∈ fields cfg, isName it.1 = true ∧ readQuoted it.2.1.data = .ended it.2.2.data :=
  fun it hit => (fields_keyword cfg it hit).2

/-- C1: when none of the four pool knobs is positive, `CreateConnectionString`
returns exactly `host='H' port='P' user='U' password='W' dbname='D'`, `P` being
the decimal form of the port and `H`, `U`, `W`, `D` the escaped host, user name,
password and database name; and for every configuration the result is a list of
settings `key='value'` separated by single blanks, each key a setting name and
each value a text that the quoted-value rule reads to its end. -/
theorem createConnectionString_contract (cfg : PostgresConfig)
    (h1 : cfg.PoolMaxConns ≤ 0) (h2 : cfg.PoolMinConns ≤ 0)
    (h3 : cfg.PoolMaxConnLifetime ≤ 0) (h4 : cfg.PoolMaxConnIdleTime ≤ 0) :
    CreateConnectionString cfg =
        "host='" ++ Go.replacerReplace cfg.Host ++ "' port='" ++ toString cfg.Port ++
        "' user='" ++ Go.replacerReplace cfg.Username ++
        "' password='" ++ Go.replacerReplace cfg.Password ++
        "' dbname='" ++ Go.replacerReplace cfg.DbName ++ "'" ∧
    ∀ c : PostgresConfig, ∃ kvs : List (String × String),
      5 ≤ kvs.length ∧
      CreateConnectionString c = " ".intercalate (kvs.map setting) ∧
      ∀ kv ∈ kvs, isKeyword kv.1 = true ∧ ∃ v, readQuoted kv.2.data = .ended v := by
  constructor
  · have e1 : ¬ cfg.PoolMaxConns > 0 := not_lt.2 h1
    have e2 : ¬ cfg.PoolMinConns > 0 := not_lt.2 h2
    have e3 : ¬ cfg.PoolMaxConnLifetime > 0 := not_lt.2 h3
    have e4 : ¬ cfg.PoolMaxConnIdleTime > 0 := not_lt.2 h4
    rw [← Go.sprintD_eq_toString]
    simp only [CreateConnectionString, connectionPairs, basePairs, e1, e2, e3, e4, if_false]
    apply String.ext
    simp only [String.intercalate, String.intercalate.go, String.data_append, List.append_assoc]
    rfl
  · intro c
    refine ⟨(fields c).map fun it => (it.1, it.2.1), ?_, ?_, ?_⟩
    · unfold fields
      simp only [List.length_map, List.length_append, List.length_cons, List.length_nil]
      omega
    · rw [CreateConnectionString, connectionPairs_eq_fields, List.map_map]
      rfl
    · intro kv hkv
      obtain ⟨it, hit, rfl⟩ := List.mem_map.1 hkv
      exact ⟨(fields_keyword c it hit).1, _, (fields_keyword c it hit).2.2⟩

/-- Witness for C1: a configuration without pool knobs whose password holds a quote
and ends in a backslash. -/
theorem createConnectionString_contract_witness :
    CreateConnectionString ⟨"db.local", 5432, "yhs", "pa'ss\\", "history", 0, 0, 0, 0⟩ =
      "host='db.local' port='5432' user='yhs' password='pa\\'ss\\\\' dbname='history'" := by
  have h := (createConnectionString_contract
    ⟨"db.local", 5432, "yhs", "pa'ss\\", "history", 0, 0, 0, 0⟩
    (by decide) (by decide) (by decide) (by decide)).1
  rw [h]
  decide

/-- C10 (the code departs from the claim): with only `PoolMaxConnIdleTime` set, to
thirty seconds, the descriptor names the setting `pool_man_conn_idle_time`;
the name `pool_max_conn_idle_time` does not occur in it. -/
theorem createConnectionString_idle_time_name :
    CreateConnectionString ⟨"db.local", 5432, "yhs", "secret", "history", 0, 0, 0, 30000000000⟩ =
      "host='db.local' port='5432' user='yhs' password='secret' dbname='history' " ++
        "pool_man_conn_idle_time='30s'" ∧
    ¬ ("pool_max_conn_idle_time".data <:+:
        (CreateConnectionString
          ⟨"db.local", 5432, "yhs", "secret", "history", 0, 0, 0, 30000000000⟩).data) := by
  constructor
  · decide
  · set_option maxRecDepth 100000 in decide

end Repository

/-- C2: the escaping of both `CreateConnectionString` functions preserves every field
value.  Reading the escaped text by the quoted-value rule reaches the end of the
text without meeting a terminating quote and yields exactly the original value.
So the descriptor of the history-server reads back as the five fields with the
configured host, port, user name, password and database name, followed only by
settings whose names start with `pool_`, and the descriptor of the event-collector reads back as the
entries it was made from: no value closes its quotes or adds or changes a
setting. -/
theorem escape_preserves_value (v : String) :
    Descriptor.readQuoted (Go.replacerReplace v).data = .ended v.data ∧
    (∀ cfg : Repository.PostgresConfig, ∃ pool : List (String × String),
      Descriptor.parseDescriptor (Repository.CreateConnectionString cfg) =
        some ([("host", cfg.Host), ("port", toString cfg.Port), ("user", cfg.Username),
          ("password", cfg.Password), ("dbname", cfg.DbName)] ++ pool) ∧
      ∀ kv ∈ pool, "pool_".data <+: kv.1.data) ∧
    (∀ values : List (String × String), (∀ kv ∈ values, Descriptor.isName kv.1 = true) →
      Descriptor.parseDescriptor (EventCollector.CreateConnectionString values) =
        some values) := by
  refine ⟨Descriptor.readQuoted_flatMap_replaceByte v.data, fun cfg => ?_, fun values hv => ?_⟩
  · refine ⟨((Repository.fields cfg).map fun it => (it.1, it.2.2)).drop 5, ?_, ?_⟩
    · rw [Repository.CreateConnectionString, Repository.connectionPairs_eq_fields,
        Descriptor.parseDescriptor_join _ (Repository.fields_wellformed cfg),
        ← Go.sprintD_eq_toString]
      unfold Repository.fields
      rfl
    · intro kv hkv
      unfold Repository.fields at hkv
      simp only [List.map_append, List.map_cons, List.map_nil, List.cons_append,
        List.nil_append, List.drop_succ_cons, List.drop_zero, List.mem_append] at hkv
      rcases hkv with ((h | h) | h) | h <;> split at h <;>
        simp only [List.map_cons, List.map_nil, List.mem_singleton, List.not_mem_nil] at h <;>
        subst h <;>
        first
          | exact (by decide : "pool_".data <+: "pool_max_conns".data)
          | exact (by decide : "pool_".data <+: "pool_min_conns".data)
          | exact (by decide : "pool_".data <+: "pool_max_conn_lifetime".data)
          | exact (by decide : "pool_".data <+: "pool_man_conn_idle_time".data)
  · have h := Descriptor.parseDescriptor_join
      (values.map fun kv => (kv.1, Go.replacerReplace kv.2, kv.2)) (by
        intro it hit
        obtain ⟨kv, hkv, rfl⟩ := List.mem_map.1 hit
        exact ⟨hv kv hkv, Descriptor.readQuoted_flatMap_replaceByte kv.2.data⟩)
    rw [List.map_map, List.map_map] at h
    rw [EventCollector.CreateConnectionString]
    have e1 : ((fun it : String × String × String => it.1 ++ "='" ++ it.2.1 ++ "'") ∘
        fun kv : String × String => (kv.1, Go.replacerReplace kv.2, kv.2)) =
        fun kv => kv.1 ++ "='" ++ Go.replacerReplace kv.2 ++ "'" := rfl
    have e2 : ((fun it : String × String × String => (it.1, it.2.2)) ∘
        fun kv : String × String => (kv.1, Go.replacerReplace kv.2, kv.2)) = id := rfl
    rw [e1, e2, List.map_id] at h
    exact h

/-! ## The schema that `Setup` declares -/

namespace Sql

theorem collide_of_agree (key : List String) (r s : Row)
    (hsome : ∀ c ∈ key, (r.lookup c).isSome = true)
    (hagree : ∀ c ∈ key, r.lookup c = s.lookup c) : collide key r s = true := by
  unfold collide
  rw [List.all_eq_true]
  intro c hc
  show ((r.lookup c).isSome && (r.lookup c == s.lookup c)) = true
  rw [Bool.and_eq_true]
  exact ⟨hsome c hc, by rw [hagree c hc]; exact beq_self_eq_true _⟩

/-- A table never accepts two rows that agree on a key it declares unique, when the
columns of the key must hold a value. -/
theorem not_both_accepted (t : Table) (key : List String)
    (hk : key ∈ t.primaryKey ++ t.unique)
    (hn : ∀ c ∈ key, c ∈ t.notNull ++ t.primaryKey.flatten)
    (rows : List Row) (r s : Row) (hagree : ∀ c ∈ key, r.lookup c = s.lookup c) :
    ¬ (accepts t rows r = true ∧ accepts t (rows ++ [r]) s = true) := by
  rintro ⟨h1, h2⟩
  unfold accepts at h1 h2
  rw [Bool.and_eq_true] at h1 h2
  have hsome : ∀ c ∈ key, (r.lookup c).isSome = true :=
    fun c hc => List.all_eq_true.1 h1.1 c (hn c hc)
  have hc := collide_of_agree key r s hsome hagree
  have hany : (rows ++ [r]).any
      (fun s1 => (t.primaryKey ++ t.unique).any fun key => collide key s1 s) = true := by
    rw [List.any_eq_true]
    exact ⟨r, by simp, List.any_eq_true.2 ⟨key, hk, hc⟩⟩
  rw [hany] at h2
  exact absurd h2.2 (by decide)

end Sql

namespace Repository

open Sql

/-- C3, as the code has it: the statement list of the history-server `Setup` holds a
`CREATE TABLE` statement for each of the six tables partitions, applications,
queues, nodes, partition_nodes_util and history, and for no other table: its
sixteen statements are these six, the `DROP TABLE IF EXISTS` before each, two
`CREATE UNIQUE INDEX` statements and the `DROP TYPE` and `CREATE TYPE` of the
history type. -/
theorem setup_creates_six_tables :
    createdTables setupStmts =
      ["partitions", "applications", "queues", "nodes", "partition_nodes_util", "history"] ∧
    (∀ name, name ∈ createdTables setupStmts ↔
      name ∈ ["partitions", "applications", "queues", "nodes", "partition_nodes_util",
        "history"]) ∧
    setupStmts.map (fun stmt => (words stmt).take 3) =
      [ ["DROP", "TABLE", "IF"], ["CREATE", "TABLE", "partitions"],
        ["DROP", "TABLE", "IF"], ["CREATE", "TABLE", "applications"],
        ["CREATE", "UNIQUE", "INDEX"],
        ["DROP", "TABLE", "IF"], ["CREATE", "TABLE", "queues"],
        ["CREATE", "UNIQUE", "INDEX"],
        ["DROP", "TABLE", "IF"], ["CREATE", "TABLE", "nodes"],
        ["DROP", "TABLE", "IF"], ["CREATE", "TABLE", "partition_nodes_util"],
        ["DROP", "TABLE", "IF"], ["DROP", "TYPE", "IF"], ["CREATE", "TYPE", "history_type"],
        ["CREATE", "TABLE", "history"] ] := by
  have h : createdTables setupStmts =
      ["partitions", "applications", "queues", "nodes", "partition_nodes_util", "history"] := by
    decide
  exact ⟨h, fun name => by rw [h], by decide⟩

/-- C3 fails as stated: no statement of the history-server `Setup` creates a table
called clusters. -/
theorem setup_creates_no_clusters_table :
    ¬ ("clusters" ∈ createdTables setupStmts) := by
  decide

/-- C4 fails as stated: the nodes table declares `UNIQUE (node_id)` and no constraint
on (partition, node_id), and of two node rows with the same node id in different
partitions (and different ids) the second is refused. -/
theorem nodes_unique_on_node_id_alone :
    (tableOf setupStmts "nodes").map (fun t => t.unique) = some [["id"], ["node_id"]] ∧
    (tableOf setupStmts "nodes").map (fun t =>
      insertAll t []
        [ [("id", "1"), ("node_id", "node-a"), ("partition", "p1"), ("host_name", "h")],
          [("id", "2"), ("node_id", "node-a"), ("partition", "p2"), ("host_name", "h")] ]) =
      some [ [("id", "1"), ("node_id", "node-a"), ("partition", "p1"), ("host_name", "h")] ] := by
  constructor <;> decide

/-- C4, as the code has it: each entity table has the primary key (id) and, besides
the constraint on id, a uniqueness constraint on exactly one key: partitions on
(name), queues on (partition, queue_name), applications on (partition,
queue_name, app_id) and nodes on (node_id).  No table accepts two rows that agree
on that key; for nodes this holds whatever the partitions of the two rows. -/
theorem entity_tables_natural_keys (name : String) (key : List String)
    (h : (name, key) ∈ [ ("partitions", ["name"]), ("queues", ["partition", "queue_name"]),
      ("applications", ["partition", "queue_name", "app_id"]), ("nodes", ["node_id"]) ]) :
    ∃ t, tableOf setupStmts name = some t ∧
      t.primaryKey = [["id"]] ∧ t.unique = [["id"], key] ∧
      ∀ (rows : List Row) (r s : Row), (∀ c ∈ key, r.lookup c = s.lookup c) →
        ¬ (accepts t rows r = true ∧ accepts t (rows ++ [r]) s = true) := by
  simp only [List.mem_cons, Prod.mk.injEq, List.mem_singleton, List.not_mem_nil, or_false] at h
  have key_step : ∀ (nm : String) (k : List String) (t : Table),
      tableOf setupStmts nm = some t → t.primaryKey = [["id"]] → t.unique = [["id"], k] →
      (∀ c ∈ k, c ∈ t.notNull ++ t.primaryKey.flatten) →
      ∃ t, tableOf setupStmts nm = some t ∧
        t.primaryKey = [["id"]] ∧ t.unique = [["id"], k] ∧
        ∀ (rows : List Row) (r s : Row), (∀ c ∈ k, r.lookup c = s.lookup c) →
          ¬ (accepts t rows r = true ∧ accepts t (rows ++ [r]) s = true) := by
    intro nm k t ht hp hu hn
    refine ⟨t, ht, hp, hu, fun rows r s hag => ?_⟩
    exact not_both_accepted t k (by rw [hu]; simp) hn rows r s hag
  rcases h with ⟨rfl, rfl⟩ | ⟨rfl, rfl⟩ | ⟨rfl, rfl⟩ | ⟨rfl, rfl⟩
  · exact key_step _ _ ((tableOf setupStmts "partitions").get (by decide))
      (by decide) (by decide) (by decide) (by decide)
  · exact key_step _ _ ((tableOf setupStmts "queues").get (by decide))
      (by decide) (by decide) (by decide) (by decide)
  · exact key_step _ _ ((tableOf setupStmts "applications").get (by decide))
      (by decide) (by decide) (by decide) (by decide)
  · exact key_step _ _ ((tableOf setupStmts "nodes").get (by decide))
      (by decide) (by decide) (by decide) (by decide)

/-- Witness for C4: the nodes table and its key (node_id). -/
theorem entity_tables_natural_keys_witness :
    ∃ t, tableOf setupStmts "nodes" = some t ∧
      t.primaryKey = [["id"]] ∧ t.unique = [["id"], ["node_id"]] ∧
      ∀ (rows : List Row) (r s : Row), (∀ c ∈ ["node_id"], r.lookup c = s.lookup c) →
        ¬ (accepts t rows r = true ∧ accepts t (rows ++ [r]) s = true) :=
  entity_tables_natural_keys "nodes" ["node_id"] (by decide)

end Repository

/-! ## `Setup` stops at the first failing statement -/

namespace Setup

variable {σ ε : Type}

theorem errorAt_zero (exec : σ → String → σ × Option ε) (db : σ) (s : String)
    (rest : List String) : errorAt exec db (s :: rest) 0 = (exec db s).2 := rfl

theorem errorAt_succ (exec : σ → String → σ × Option ε) (db : σ) (s : String)
    (rest : List String) (i : Nat) :
    errorAt exec db (s :: rest) (i + 1) = errorAt exec (exec db s).1 rest i := rfl

theorem runStmts_ok (exec : σ → String → σ × Option ε) (stmts : List String) :
    ∀ db, (runStmts exec db stmts).panicked = none →
      (∀ i, i < stmts.length → errorAt exec db stmts i = none) ∧
      (runStmts exec db stmts).executed = stmts ∧
      (runStmts exec db stmts).db = dbAfter exec db stmts := by
  induction stmts with
  | nil => intro db _; exact ⟨fun i hi => absurd hi (Nat.not_lt_zero i), rfl, rfl⟩
  | cons s rest ih =>
    intro db h
    rcases hex : exec db s with ⟨db1, _ | err⟩
    · have hrun : runStmts exec db (s :: rest) =
          ⟨s :: (runStmts exec db1 rest).executed, (runStmts exec db1 rest).db,
            (runStmts exec db1 rest).panicked⟩ := by
        simp only [runStmts, hex]
      rw [hrun] at h ⊢
      obtain ⟨h1, h2, h3⟩ := ih db1 h
      have hdb : (exec db s).1 = db1 := by rw [hex]
      refine ⟨?_, ?_, ?_⟩
      · intro i hi
        cases i with
        | zero => rw [errorAt_zero, hex]
        | succ j =>
          rw [errorAt_succ, hdb]
          exact h1 j (Nat.lt_of_succ_lt_succ hi)
      · show s :: _ = s :: rest
        rw [h2]
      · show (runStmts exec db1 rest).db = dbAfter exec (exec db s).1 rest
        rw [h3, hdb]
    · have hrun : runStmts exec db (s :: rest) = ⟨[s], db1, some err⟩ := by
        simp only [runStmts, hex]
      rw [hrun] at h
      exact absurd h (by simp)

theorem runStmts_panicked (exec : σ → String → σ × Option ε) (stmts : List String) :
    ∀ db e, (runStmts exec db stmts).panicked = some e →
      ∃ i, i < stmts.length ∧ (∀ j, j < i → errorAt exec db stmts j = none) ∧
        errorAt exec db stmts i = some e ∧
        (runStmts exec db stmts).executed = stmts.take (i + 1) ∧
        (runStmts exec db stmts).db = dbAfter exec db (stmts.take (i + 1)) := by
  induction stmts with
  | nil => intro db e h; exact absurd h (by simp [runStmts])
  | cons s rest ih =>
    intro db e h
    rcases hex : exec db s with ⟨db1, _ | err⟩
    · have hrun : runStmts exec db (s :: rest) =
          ⟨s :: (runStmts exec db1 rest).executed, (runStmts exec db1 rest).db,
            (runStmts exec db1 rest).panicked⟩ := by
        simp only [runStmts, hex]
      rw [hrun] at h ⊢
      obtain ⟨i, hi, hbefore, hat, hexe, hdbr⟩ := ih db1 e h
      have hdb : (exec db s).1 = db1 := by rw [hex]
      refine ⟨i + 1, Nat.succ_lt_succ hi, ?_, ?_, ?_, ?_⟩
      · intro j hj
        cases j with
        | zero => rw [errorAt_zero, hex]
        | succ k =>
          rw [errorAt_succ, hdb]
          exact hbefore k (Nat.lt_of_succ_lt_succ hj)
      · rw [errorAt_succ, hdb]; exact hat
      · show s :: _ = s :: rest.take (i + 1)
        rw [hexe]
      · show (runStmts exec db1 rest).db = dbAfter exec (exec db s).1 (rest.take (i + 1))
        rw [hdbr, hdb]
    · have hrun : runStmts exec db (s :: rest) = ⟨[s], db1, some err⟩ := by
        simp only [runStmts, hex]
      rw [hrun] at h ⊢
      have he : err = e := by simpa using h
      subst he
      refine ⟨0, Nat.succ_pos _, fun j hj => absurd hj (Nat.not_lt_zero j), ?_, ?_, ?_⟩
      · rw [errorAt_zero, hex]
      · simp
      · show db1 = dbAfter exec (exec db s).1 []
        rw [hex]; rfl

theorem runStmts_fatalOnFirstError (exec : σ → String → σ × Option ε) (db : σ)
    (stmts : List String) : FatalOnFirstError exec db stmts (runStmts exec db stmts) := by
  have hok := runStmts_ok exec stmts db
  have hpan := runStmts_panicked exec stmts db
  refine ⟨?_, ⟨fun h => (hok h).1, fun hall => ?_⟩, fun h => (hok h).2, hpan⟩
  · cases hp : (runStmts exec db stmts).panicked with
    | none => rw [(hok hp).2.1]
    | some e =>
      obtain ⟨i, _, _, _, hexe, _⟩ := hpan e hp
      rw [hexe]
      exact List.take_prefix _ _
  · cases hp : (runStmts exec db stmts).panicked with
    | none => rfl
    | some e =>
      obtain ⟨i, hi, _, hat, _, _⟩ := hpan e hp
      rw [hall i hi] at hat
      exact absurd hat (by simp)

end Setup

/-- C8: both `Setup` functions execute their statements one at a time in the listed
order; when a statement fails, `Setup` panics with that error, having executed the
statements up to that one and none after it; `Setup` returns normally if and only
if no statement fails, and then it has executed the whole list, once each and in
order. -/
theorem setup_fatal_on_first_error {σ ε : Type} (exec : σ → String → σ × Option ε) (db : σ) :
    Setup.FatalOnFirstError exec db Repository.setupStmts (Repository.Setup exec db) ∧
    Setup.FatalOnFirstError exec db EventCollector.setupStmts (EventCollector.Setup exec db) :=
  ⟨Setup.runStmts_fatalOnFirstError exec db _, Setup.runStmts_fatalOnFirstError exec db _⟩

/-! ## The event repository: exact counts and snapshots -/

namespace EventRepository

theorem get_incr_self (m : CountMap) (k : String) : (m.incr k).get k = m.get k + 1 := by
  induction m with
  | nil => simp [CountMap.incr, CountMap.get, List.lookup]
  | cons p rest ih =>
    obtain ⟨k1, n⟩ := p
    unfold CountMap.incr
    by_cases h : k1 = k
    · subst h
      simp [CountMap.get, List.lookup]
    · have hb : (k == k1) = false := by simpa using fun e => h e.symm
      simp only [h, if_false]
      simp only [CountMap.get, List.lookup, hb] at ih ⊢
      exact ih

theorem get_incr_other (m : CountMap) (k k2 : String) (hne : k2 ≠ k) :
    (m.incr k).get k2 = m.get k2 := by
  induction m with
  | nil =>
    have hb : (k2 == k) = false := by simpa using hne
    simp [CountMap.incr, CountMap.get, List.lookup, hb]
  | cons p rest ih =>
    obtain ⟨k1, n⟩ := p
    unfold CountMap.incr
    by_cases h : k1 = k
    · subst h
      have hb : (k2 == k1) = false := by simpa using hne
      simp [CountMap.get, List.lookup, hb]
    · simp only [h, if_false]
      by_cases h2 : k2 = k1
      · subst h2
        simp [CountMap.get, List.lookup]
      · have hb : (k2 == k1) = false := by simpa using h2
        simp only [CountMap.get, List.lookup, hb] at ih ⊢
        exact ih

theorem length_Record (repo : InMemoryEventRepository) (h : Heap) (ev : EventRecord) :
    (Record repo h ev).length = h.length := by
  simp [Record]

theorem read_Record_self (repo : InMemoryEventRepository) (h : Heap) (ev : EventRecord)
    (hrepo : repo.eventCounts < h.length) :
    Heap.read (Record repo h ev) repo.eventCounts =
      (Heap.read h repo.eventCounts).incr (key ev) := by
  simp [Record, Heap.read, List.getD_eq_getElem?_getD, List.getElem?_set, hrepo]

theorem read_Record_other (repo : InMemoryEventRepository) (h : Heap) (ev : EventRecord)
    (addr : Nat) (hne : addr ≠ repo.eventCounts) :
    Heap.read (Record repo h ev) addr = Heap.read h addr := by
  simp [Record, Heap.read, List.getD_eq_getElem?_getD, List.getElem?_set, Ne.symm hne]

/-- One `Record` call adds one to the count under the key of the event and leaves
every other count as it was. -/
theorem get_Record (repo : InMemoryEventRepository) (h : Heap) (ev : EventRecord)
    (hrepo : repo.eventCounts < h.length) (k : String) :
    (Heap.read (Record repo h ev) repo.eventCounts).get k =
      if k = key ev then (Heap.read h repo.eventCounts).get k + 1
      else (Heap.read h repo.eventCounts).get k := by
  rw [read_Record_self repo h ev hrepo]
  split
  · next hk => subst hk; exact get_incr_self _ _
  · next hk => exact get_incr_other _ _ _ hk

theorem length_recordAll (repo : InMemoryEventRepository) (evs : List EventRecord) :
    ∀ h : Heap, (recordAll repo h evs).length = h.length := by
  induction evs with
  | nil => intro h; rfl
  | cons ev rest ih => intro h; rw [recordAll, ih, length_Record]

theorem read_recordAll_other (repo : InMemoryEventRepository) (evs : List EventRecord)
    (addr : Nat) (hne : addr ≠ repo.eventCounts) :
    ∀ h : Heap, Heap.read (recordAll repo h evs) addr = Heap.read h addr := by
  induction evs with
  | nil => intro h; rfl
  | cons ev rest ih => intro h; rw [recordAll, ih, read_Record_other repo h ev addr hne]

theorem countKey_cons (k : String) (ev : EventRecord) (evs : List EventRecord) :
    countKey k (ev :: evs) = (if k = key ev then 1 else 0) + countKey k evs := by
  unfold countKey
  by_cases h : key ev = k
  · simp [List.filter_cons, h, Nat.add_comm]
  · have h2 : ¬ k = key ev := fun e => h e.symm
    simp [List.filter_cons, h, h2]

theorem countKey_append (k : String) (xs ys : List EventRecord) :
    countKey k (xs ++ ys) = countKey k xs + countKey k ys := by
  simp [countKey, List.filter_append]

theorem countKey_flatten_replicate (k : String) (n : Nat) (l : List EventRecord) :
    countKey k (List.replicate n l).flatten = n * countKey k l := by
  induction n with
  | zero => simp [countKey]
  | succ m ih =>
    rw [List.replicate_succ, List.flatten_cons, countKey_append, ih]
    ring

/-- After the calls of `evs`, each count has grown by the number of events of `evs`
with that key. -/
theorem get_recordAll (repo : InMemoryEventRepository) (evs : List EventRecord) (k : String) :
    ∀ h : Heap, repo.eventCounts < h.length →
      (Heap.read (recordAll repo h evs) repo.eventCounts).get k =
        (Heap.read h repo.eventCounts).get k + countKey k evs := by
  induction evs with
  | nil => intro h _; simp [recordAll, countKey]
  | cons ev rest ih =>
    intro h hrepo
    rw [recordAll, ih (Record repo h ev) (by rw [length_Record]; exact hrepo),
      get_Record repo h ev hrepo, countKey_cons]
    split <;> omega

theorem sum_map_set (f : List EventRecord → Nat) (ps : List (List EventRecord)) :
    ∀ (i : Nat) (p q : List EventRecord), ps.get? i = some p →
      ((ps.set i q).map f).sum + f p = (ps.map f).sum + f q := by
  induction ps with
  | nil => intro i p q h; simp at h
  | cons a rest ih =>
    intro i p q h
    cases i with
    | zero =>
      simp only [List.get?_cons_zero, Option.some.injEq] at h
      subst h
      simp only [List.set_cons_zero, List.map_cons, List.sum_cons]
      omega
    | succ j =>
      simp only [List.get?_cons_succ] at h
      have := ih j p q h
      simp only [List.set_cons_succ, List.map_cons, List.sum_cons]
      omega

/-- A run of the producers holds, for each key, as many events as the sequences of
the producers together. -/
theorem countKey_interleaving (k : String) (producers : List (List EventRecord))
    (run : List EventRecord) (h : Interleaving producers run) :
    countKey k run = (producers.map (countKey k)).sum := by
  induction h with
  | done ps hall =>
    have : ps.map (countKey k) = ps.map fun _ => 0 := by
      apply List.map_congr_left
      intro p hp
      rw [hall p hp]; rfl
    rw [this]
    simp [countKey]
  | step ps i ev rest run hget _ ih =>
    have hs := sum_map_set (countKey k) ps i (ev :: rest) rest hget
    rw [countKey_cons] at hs ⊢
    omega

theorem sum_map_replicate (k : String) (n : Nat) (evs : List EventRecord) :
    ((List.replicate n evs).map (countKey k)).sum = n * countKey k evs := by
  induction n with
  | zero => simp
  | succ m ih =>
    rw [List.replicate_succ, List.map_cons, List.sum_cons, ih]
    ring

theorem countsOf_eq (repo : InMemoryEventRepository) (h : Heap) :
    countsOf repo h = Heap.read h repo.eventCounts := by
  simp [countsOf, Counts, Heap.read, List.getD_eq_getElem?_getD]

/-- After any run of `m` producers that each record `es`, on a fresh repository,
`Counts` holds `m` times the per-key counts of `es`. -/
theorem countsOf_interleaving (h0 : Heap) (m : Nat) (es r : List EventRecord) (k : String)
    (hr : Interleaving (List.replicate m es) r) :
    (countsOf (NewInMemoryEventRepository h0).1
      (recordAll (NewInMemoryEventRepository h0).1 (NewInMemoryEventRepository h0).2 r)).get k =
      m * countKey k es := by
  have hlen : (NewInMemoryEventRepository h0).1.eventCounts <
      (NewInMemoryEventRepository h0).2.length := by
    simp [NewInMemoryEventRepository]
  have hempty : Heap.read (NewInMemoryEventRepository h0).2
      (NewInMemoryEventRepository h0).1.eventCounts = [] := by
    simp [NewInMemoryEventRepository, Heap.read, List.getD_eq_getElem?_getD]
  rw [countsOf_eq, get_recordAll _ _ _ _ hlen, hempty, countKey_interleaving k _ _ hr,
    sum_map_replicate]
  simp [CountMap.get]

/-- C5: each `Record` call adds exactly one to the count under the key of its event
and changes no other count, so no count decreases; and when `n` producers each
record the sequence `evs` on a fresh repository, then after any interleaving `run`
of their calls `Counts` returns a map holding, under every key, `n` times the
number of events of `evs` with that key.  For the ten producers of the test this
is 4000 under APP-ADD and 2000 under APP-SET. -/
theorem record_counts_exact (h0 : Heap) (n : Nat) (evs run : List EventRecord)
    (hrun : Interleaving (List.replicate n evs) run) :
    (∀ (repo : InMemoryEventRepository) (h : Heap) (ev : EventRecord) (k : String),
      repo.eventCounts < h.length →
      (countsOf repo (Record repo h ev)).get k =
          (if k = key ev then (countsOf repo h).get k + 1 else (countsOf repo h).get k) ∧
        (countsOf repo h).get k ≤ (countsOf repo (Record repo h ev)).get k) ∧
    (∀ k : String,
      (countsOf (NewInMemoryEventRepository h0).1
        (recordAll (NewInMemoryEventRepository h0).1 (NewInMemoryEventRepository h0).2
          run)).get k = n * countKey k evs) ∧
    (∀ run10 : List EventRecord, Interleaving (List.replicate 10 producerEvents) run10 →
      (countsOf (NewInMemoryEventRepository h0).1
        (recordAll (NewInMemoryEventRepository h0).1 (NewInMemoryEventRepository h0).2
          run10)).get "APP-ADD" = 4000 ∧
      (countsOf (NewInMemoryEventRepository h0).1
        (recordAll (NewInMemoryEventRepository h0).1 (NewInMemoryEventRepository h0).2
          run10)).get "APP-SET" = 2000) := by
  refine ⟨fun repo h ev k hlen => ?_, fun k => countsOf_interleaving h0 n evs run k hrun, ?_⟩
  · rw [countsOf_eq, countsOf_eq, get_Record repo h ev hlen k]
    refine ⟨rfl, ?_⟩
    split <;> omega
  · intro run10 h10
    have hadd : countKey "APP-ADD" producerEvents = 400 := by
      rw [producerEvents, countKey_flatten_replicate]; decide
    have hset : countKey "APP-SET" producerEvents = 200 := by
      rw [producerEvents, countKey_flatten_replicate]; decide
    rw [countsOf_interleaving h0 10 producerEvents run10 "APP-ADD" h10,
      countsOf_interleaving h0 10 producerEvents run10 "APP-SET" h10, hadd, hset]
    exact ⟨rfl, rfl⟩

/-- Witness for C5: two producers that each record APP/ADD then APP/SET, their calls
interleaved as ADD, ADD, SET, SET. -/
theorem record_counts_exact_witness :
    (countsOf (NewInMemoryEventRepository []).1
      (recordAll (NewInMemoryEventRepository []).1 (NewInMemoryEventRepository []).2
        [⟨.APP, .ADD⟩, ⟨.APP, .ADD⟩, ⟨.APP, .SET⟩, ⟨.APP, .SET⟩])).get "APP-ADD" =
      2 * countKey "APP-ADD" [⟨.APP, .ADD⟩, ⟨.APP, .SET⟩] :=
  (record_counts_exact [] 2 [⟨.APP, .ADD⟩, ⟨.APP, .SET⟩]
    [⟨.APP, .ADD⟩, ⟨.APP, .ADD⟩, ⟨.APP, .SET⟩, ⟨.APP, .SET⟩]
    (.step _ 0 ⟨.APP, .ADD⟩ [⟨.APP, .SET⟩] _ rfl
      (.step _ 1 ⟨.APP, .ADD⟩ [⟨.APP, .SET⟩] _ rfl
        (.step _ 0 ⟨.APP, .SET⟩ [] _ rfl
          (.step _ 1 ⟨.APP, .SET⟩ [] _ rfl
            (.done _ (by decide))))))).2.1 "APP-ADD"

/-- C9: the map that `Counts` returns is a copy.  It lives at an address of its own,
holds the counts of the repository at the time of the call, and still holds
exactly those after any sequence of later `Record` calls, while the map a later
`Counts` call returns holds the old counts plus the new records. -/
theorem counts_snapshot_isolated (repo : InMemoryEventRepository) (h : Heap)
    (hrepo : repo.eventCounts < h.length) (evs : List EventRecord) :
    (Counts repo h).1 ≠ repo.eventCounts ∧
    Heap.read (Counts repo h).2 (Counts repo h).1 = Heap.read h repo.eventCounts ∧
    Heap.read (recordAll repo (Counts repo h).2 evs) (Counts repo h).1 =
      Heap.read (Counts repo h).2 (Counts repo h).1 ∧
    ∀ k : String,
      (countsOf repo (recordAll repo (Counts repo h).2 evs)).get k =
        (Heap.read (Counts repo h).2 (Counts repo h).1).get k + countKey k evs := by
  have hne : (Counts repo h).1 ≠ repo.eventCounts := by
    simp only [Counts]; omega
  have hcounts : Heap.read (Counts repo h).2 (Counts repo h).1 =
      Heap.read h repo.eventCounts := countsOf_eq repo h
  have hkeep : Heap.read (Counts repo h).2 repo.eventCounts = Heap.read h repo.eventCounts := by
    simp [Counts, Heap.read, List.getD_eq_getElem?_getD, List.getElem?_append_left hrepo]
  have hlen : repo.eventCounts < (Counts repo h).2.length := by
    simp only [Counts, List.length_append, List.length_singleton]; omega
  refine ⟨hne, hcounts, ?_, fun k => ?_⟩
  · rw [read_recordAll_other repo evs _ hne]
  · rw [countsOf_eq, get_recordAll repo evs k _ hlen, hkeep, hcounts]

/-- Witness for C9: a repository holding APP-ADD = 1; a snapshot is taken and APP/ADD,
APP/SET are recorded after it.  The snapshot still reads APP-ADD = 1 while the
repository's own map reads APP-ADD = 2, APP-SET = 1. -/
theorem counts_snapshot_isolated_witness :
    Heap.read (recordAll ⟨0⟩ (Counts ⟨0⟩ [[("APP-ADD", 1)]]).2 [⟨.APP, .ADD⟩, ⟨.APP, .SET⟩])
        (Counts ⟨0⟩ [[("APP-ADD", 1)]]).1 = [("APP-ADD", 1)] ∧
    Heap.read (recordAll ⟨0⟩ (Counts ⟨0⟩ [[("APP-ADD", 1)]]).2 [⟨.APP, .ADD⟩, ⟨.APP, .SET⟩]) 0 =
      [("APP-ADD", 2), ("APP-SET", 1)] :=
  ⟨(counts_snapshot_isolated ⟨0⟩ [[("APP-ADD", 1)]] (by decide)
      [⟨.APP, .ADD⟩, ⟨.APP, .SET⟩]).2.2.1.trans (by decide), by decide⟩

end EventRepository

/-! ## The JSON reader reads what the encoder writes -/

namespace Json

/-! ### Numbers -/

theorem isDigit_digitChar (d : Nat) : isDigit (Go.digitChar d) = true := by
  unfold Go.digitChar
  split <;> decide

theorem digitChar_ne_zero (v : Nat) (h0 : 0 < v) (h : v < 10) : Go.digitChar v ≠ '0' := by
  interval_cases v <;> decide

theorem fmtIntLoop_zero (fuel : Nat) (buf : List Char) : Go.fmtIntLoop fuel 0 buf = buf := by
  cases fuel <;> simp [Go.fmtIntLoop]

/-- The digits of a positive number start with a digit that is not zero. -/
theorem fmtIntLoop_shape (v : Nat) :
    ∀ (fuel : Nat) (buf : List Char), 0 < v → v ≤ fuel →
      ∃ c ds, Go.fmtIntLoop fuel v buf = c :: (ds ++ buf) ∧ c ≠ '0' ∧ isDigit c = true ∧
        ds.all isDigit = true := by
  induction v using Nat.strong_induction_on with
  | _ v ih =>
    intro fuel buf hv hf
    obtain ⟨g, rfl⟩ : ∃ k, fuel = k + 1 := ⟨fuel - 1, by omega⟩
    rw [Go.fmtIntLoop]
    simp only [hv, if_true, gt_iff_lt]
    by_cases h0 : v / 10 = 0
    · rw [h0, fmtIntLoop_zero]
      have hlt : v < 10 := by omega
      have hmod : v % 10 = v := Nat.mod_eq_of_lt hlt
      exact ⟨Go.digitChar (v % 10), [], rfl, by rw [hmod]; exact digitChar_ne_zero v hv hlt,
        isDigit_digitChar _, rfl⟩
    · have hlt : v / 10 < v := Nat.div_lt_self hv (by decide)
      obtain ⟨c, ds, he, hc, hd, hds⟩ :=
        ih (v / 10) hlt g (Go.digitChar (v % 10) :: buf) (by omega) (by omega)
      refine ⟨c, ds ++ [Go.digitChar (v % 10)], ?_, hc, hd, ?_⟩
      · rw [he]; simp
      · simp only [List.all_append, hds, List.all_cons, isDigit_digitChar, List.all_nil,
          Bool.and_self]

/-- The decimal form of a number: the single digit `0`, or digits that start with a
digit other than `0`. -/
theorem fmtInt_shape (n : Nat) :
    Go.fmtInt [] n = ['0'] ∨
      ∃ c ds, Go.fmtInt [] n = c :: ds ∧ c ≠ '0' ∧ isDigit c = true ∧ ds.all isDigit = true := by
  unfold Go.fmtInt
  split
  · exact Or.inl rfl
  · next h =>
    obtain ⟨c, ds, he, hc, hd, hds⟩ := fmtIntLoop_shape n n [] (by omega) (Nat.le_refl _)
    exact Or.inr ⟨c, ds, by rw [he, List.append_nil], hc, hd, hds⟩

/-- The decimal form of a number is a non-empty run of digits. -/
theorem fmtInt_digits (n : Nat) :
    ∃ c ds, Go.fmtInt [] n = c :: ds ∧ isDigit c = true ∧ ds.all isDigit = true := by
  rcases fmtInt_shape n with h | ⟨c, ds, he, _, hd, hds⟩
  · exact ⟨'0', [], h, by decide, rfl⟩
  · exact ⟨c, ds, he, hd, hds⟩

theorem dropDigits_append (ds tail : List Char) (h : ds.all isDigit = true) :
    dropDigits (ds ++ tail) = dropDigits tail := by
  induction ds with
  | nil => rfl
  | cons c cs ih =>
    rw [List.all_cons, Bool.and_eq_true] at h
    rw [List.cons_append, dropDigits, if_pos h.1, ih h.2]

theorem dropDigits_stop (tail : List Char) (h : NoDigitAhead tail) : dropDigits tail = tail := by
  cases tail with
  | nil => rfl
  | cons c cs =>
    rw [dropDigits, if_neg]
    rw [h c cs rfl]
    decide

theorem isNumberChar_of_isDigit (c : Char) (h : isDigit c = true) : isNumberChar c = true := by
  simp [isNumberChar, h]

theorem all_isNumberChar_of_digits (ds : List Char) (h : ds.all isDigit = true) :
    ds.all isNumberChar = true := by
  rw [List.all_eq_true] at h ⊢
  exact fun c hc => isNumberChar_of_isDigit c (h c hc)

theorem fmtInt_all_isDigit (n : Nat) : (Go.fmtInt [] n).all isDigit = true := by
  obtain ⟨c, ds, he, hd, hds⟩ := fmtInt_digits n
  rw [he, List.all_cons, hd, hds]
  rfl

theorem Number.text_eq (n : Number) :
    n.text = (if n.negative then ['-'] else []) ++
      (Go.fmtInt [] n.whole ++ (fractionText n.fraction ++ exponentText n.exponent)) := rfl

theorem exponentText_noDigit (x : Option Exponent) : NoDigitAhead (exponentText x) := by
  intro c cs h
  cases x with
  | none => simp [exponentText] at h
  | some x =>
    simp only [exponentText, Exponent.text, List.cons.injEq] at h
    rw [← h.1]
    cases x.upper <;> decide

theorem validExponent_exponentText (x : Option Exponent) :
    validExponent (exponentText x) = true := by
  cases x with
  | none => rfl
  | some x =>
    obtain ⟨c, ds, he, hd, hds⟩ := fmtInt_digits x.value
    have hdrop : dropDigits ds = [] := by
      have := dropDigits_append ds [] hds
      rw [List.append_nil] at this
      rw [this]; rfl
    have hup : ((if x.upper then 'E' else 'e') = 'e' || (if x.upper then 'E' else 'e') = 'E')
        = true := by
      cases x.upper <;> decide
    simp only [exponentText, Exponent.text, he]
    rw [validExponent.eq_def]
    simp only [hup, Bool.true_and]
    cases x.sign with
    | none =>
      have hc1 : ¬ (c = '+' ∨ c = '-') := by
        rintro (rfl | rfl) <;> simp [isDigit] at hd
      simp [hc1, hd, hdrop]
    | some s =>
      cases s <;> simp [startsWithDigit, hd, dropDigits, hdrop]

theorem fraction_digits (f : List (Fin 10)) :
    (f.map fun d => Go.digitChar d.val).all isDigit = true := by
  rw [List.all_eq_true]
  intro c hc
  obtain ⟨d, _, rfl⟩ := List.mem_map.1 hc
  exact isDigit_digitChar _

theorem validFraction_tail (f : List (Fin 10)) (x : Option Exponent) :
    validFraction (fractionText f ++ exponentText x) = true := by
  unfold fractionText
  cases f with
  | nil =>
    simp only [List.isEmpty_nil, if_true, List.nil_append]
    cases hx : exponentText x with
    | nil => rfl
    | cons c cs =>
      have hnd := exponentText_noDigit x c cs hx
      have hne : c ≠ '.' := by
        cases x with
        | none => simp [exponentText] at hx
        | some x =>
          simp only [exponentText, Exponent.text, List.cons.injEq] at hx
          rw [← hx.1]
          cases x.upper <;> decide
      rw [validFraction, if_neg hne, ← hx]
      exact validExponent_exponentText x
  | cons d ds =>
    simp only [List.isEmpty_cons, Bool.false_eq_true, if_false, List.cons_append, List.map_cons]
    rw [validFraction, if_pos rfl]
    have hall := fraction_digits (d :: ds)
    rw [List.map_cons] at hall
    rw [← List.cons_append, dropDigits_append _ _ hall,
      dropDigits_stop _ (exponentText_noDigit x), validExponent_exponentText]
    simp [startsWithDigit, isDigit_digitChar]

theorem tail_noDigit (f : List (Fin 10)) (x : Option Exponent) :
    NoDigitAhead (fractionText f ++ exponentText x) := by
  unfold fractionText
  cases f with
  | nil =>
    simp only [List.isEmpty_nil, if_true, List.nil_append]
    exact exponentText_noDigit x
  | cons d ds =>
    intro c cs h
    simp only [List.isEmpty_cons, Bool.false_eq_true, if_false, List.cons_append,
      List.cons.injEq] at h
    rw [← h.1]; decide

theorem validUnsigned_text (n : Nat) (f : List (Fin 10)) (x : Option Exponent) :
    validUnsigned (Go.fmtInt [] n ++ (fractionText f ++ exponentText x)) = true := by
  rcases fmtInt_shape n with h | ⟨c, ds, he, hc, hd, hds⟩
  · rw [h, List.singleton_append, validUnsigned, if_pos rfl]
    exact validFraction_tail f x
  · rw [he, List.cons_append, validUnsigned, if_neg hc, hd, dropDigits_append _ _ hds,
      dropDigits_stop _ (tail_noDigit f x), validFraction_tail]
    rfl

/-- The text of every number is a number of the JSON grammar. -/
theorem validNumber_text (n : Number) : validNumber n.text = true := by
  rw [Number.text_eq]
  cases n.negative with
  | true =>
    simp only [if_true, List.singleton_append]
    rw [validNumber, if_pos rfl]
    exact validUnsigned_text _ _ _
  | false =>
    simp only [Bool.false_eq_true, if_false, List.nil_append]
    obtain ⟨c, ds, he, hd, _⟩ := fmtInt_digits n.whole
    have h := validUnsigned_text n.whole n.fraction n.exponent
    rw [he, List.cons_append] at h ⊢
    have hne : c ≠ '-' := by
      rintro rfl; simp [isDigit] at hd
    rw [validNumber, if_neg hne]
    exact h

theorem exponentText_all (x : Option Exponent) : (exponentText x).all isNumberChar = true := by
  cases x with
  | none => rfl
  | some x =>
    simp only [exponentText, Exponent.text, List.all_cons, List.all_append]
    have h1 : isNumberChar (if x.upper then 'E' else 'e') = true := by
      cases x.upper <;> decide
    have h2 : (match x.sign with
        | none => ([] : List Char)
        | some true => ['-']
        | some false => ['+']).all isNumberChar = true := by
      cases x.sign with
      | none => rfl
      | some s => cases s <;> decide
    rw [h1, h2, all_isNumberChar_of_digits _ (fmtInt_all_isDigit _)]
    rfl

theorem fractionText_all (f : List (Fin 10)) : (fractionText f).all isNumberChar = true := by
  unfold fractionText
  split
  · rfl
  · rw [List.all_cons, all_isNumberChar_of_digits _ (fraction_digits f)]
    decide

/-- The text of a number holds number characters only. -/
theorem text_all_isNumberChar (n : Number) : n.text.all isNumberChar = true := by
  rw [Number.text_eq]
  simp only [List.all_append, fractionText_all, exponentText_all,
    all_isNumberChar_of_digits _ (fmtInt_all_isDigit _), Bool.and_true]
  cases n.negative <;> decide

/-- The text of a number starts with a number character. -/
theorem text_head (n : Number) : ∃ c cs, n.text = c :: cs ∧ isNumberChar c = true := by
  have hall := text_all_isNumberChar n
  have hv := validNumber_text n
  cases h : n.text with
  | nil => rw [h] at hv; simp [validNumber] at hv
  | cons c cs =>
    rw [h, List.all_cons, Bool.and_eq_true] at hall
    exact ⟨c, cs, rfl, hall.1⟩

theorem takeNumber_append (t rest : List Char) (ht : t.all isNumberChar = true)
    (hrest : Stops rest) : takeNumber (t ++ rest) = (t, rest) := by
  induction t with
  | nil =>
    cases rest with
    | nil => rfl
    | cons c cs =>
      rw [List.nil_append, takeNumber, if_neg]
      rw [hrest c cs rfl]; decide
  | cons c cs ih =>
    rw [List.all_cons, Bool.and_eq_true] at ht
    rw [List.cons_append, takeNumber, if_pos ht.1, ih ht.2]

end Json

namespace Json

/-! ### Strings -/

theorem parseString_quote (rest : List Char) : parseString ('"' :: rest) = some ([], rest) := by
  rw [parseString.eq_def]
  simp

theorem parseString_short (e ch : Char) (tail : List Char) (he : e ≠ 'u')
    (h : unescape e = some ch) :
    parseString ('\\' :: e :: tail) = (parseString tail).map fun r => (ch :: r.1, r.2) := by
  rw [parseString.eq_def]
  simp [he, h]

theorem parseString_u (a b c d ch : Char) (tail : List Char) (h : hex4 a b c d = some ch) :
    parseString ('\\' :: 'u' :: a :: b :: c :: d :: tail) =
      (parseString tail).map fun r => (ch :: r.1, r.2) := by
  rw [parseString.eq_def]
  simp [h]

theorem parseString_raw (c : Char) (tail : List Char) (hq : c ≠ '"') (hb : c ≠ '\\')
    (hc : ¬ c.toNat < 32) :
    parseString (c :: tail) = (parseString tail).map fun r => (c :: r.1, r.2) := by
  rw [parseString.eq_def]
  simp [hq, hb, hc]

theorem hex4_control :
    ∀ n, n < 32 →
      hex4 '0' '0' (Nat.digitChar (n / 16)) (Nat.digitChar (n % 16)) = some (Char.ofNat n) := by
  decide

/-- Reading the escape of a character gives the character back. -/
theorem parseString_escapeChar (c : Char) (tail : List Char) :
    parseString (escapeChar c ++ tail) = (parseString tail).map fun r => (c :: r.1, r.2) := by
  unfold escapeChar
  split
  · next h => subst h; exact parseString_short _ _ _ (by decide) (by decide)
  split
  · next h => subst h; exact parseString_short _ _ _ (by decide) (by decide)
  split
  · next h => subst h; exact parseString_short _ _ _ (by decide) (by decide)
  split
  · next h => subst h; exact parseString_short _ _ _ (by decide) (by decide)
  split
  · next h => subst h; exact parseString_short _ _ _ (by decide) (by decide)
  split
  · next h => subst h; exact parseString_short _ _ _ (by decide) (by decide)
  split
  · next h => subst h; exact parseString_short _ _ _ (by decide) (by decide)
  split
  · next h =>
    have hx := hex4_control c.toNat h
    rw [Char.ofNat_toNat] at hx
    exact parseString_u _ _ _ _ _ _ hx
  · next hq hb _ _ _ _ _ hc => exact parseString_raw c tail hq hb hc

/-- Reading the escaped text of a string up to the closing quote gives the string
back. -/
theorem parseString_escaped (s rest : List Char) :
    parseString (s.flatMap escapeChar ++ '"' :: rest) = some (s, rest) := by
  induction s with
  | nil => exact parseString_quote rest
  | cons c cs ih =>
    rw [List.flatMap_cons, List.append_assoc, parseString_escapeChar, ih]
    rfl

theorem encodeString_append (s rest : List Char) :
    encodeString s ++ rest = '"' :: (s.flatMap escapeChar ++ '"' :: rest) := by
  simp [encodeString]

end Json

namespace Json

/-! ### Documents -/

theorem isWs_of_isNumberChar (c : Char) (h : isNumberChar c = true) : isWs c = false := by
  by_contra hw
  have hw2 : isWs c = true := by simpa using hw
  simp only [isWs, Bool.or_eq_true, decide_eq_true_eq] at hw2
  rcases hw2 with ((rfl | rfl) | rfl) | rfl <;> simp [isNumberChar, isDigit] at h

theorem skipWs_cons (c : Char) (cs : List Char) (h : isWs c = false) :
    skipWs (c :: cs) = c :: cs := by
  rw [skipWs, if_neg]
  rw [h]; decide

/-- The encoding of a document starts with a character that is not whitespace and
not a closing bracket. -/
theorem encode_head (d : Doc) :
    ∃ c cs, encode d = c :: cs ∧ isWs c = false ∧ c ≠ ']' := by
  cases d with
  | null => exact ⟨_, _, by rw [encode], by decide, by decide⟩
  | bool b => cases b <;> exact ⟨_, _, by rw [encode], by decide, by decide⟩
  | number n =>
    obtain ⟨c, cs, he, hc⟩ := text_head n
    refine ⟨c, cs, by rw [encode, he], isWs_of_isNumberChar c hc, ?_⟩
    rintro rfl
    simp [isNumberChar, isDigit] at hc
  | string s => exact ⟨'"', _, by rw [encode, encodeString], by decide, by decide⟩
  | array items =>
    cases items with
    | nil => exact ⟨_, _, by rw [encode], by decide, by decide⟩
    | cons v rest => exact ⟨_, _, by rw [encode], by decide, by decide⟩
  | object members =>
    cases members with
    | nil => exact ⟨_, _, by rw [encode], by decide, by decide⟩
    | cons m rest => exact ⟨_, _, by rw [encode], by decide, by decide⟩

theorem stops_cons (c : Char) (cs : List Char) (h : isNumberChar c = false) :
    Stops (c :: cs) := by
  intro d ds e
  rw [List.cons.injEq] at e
  rw [← e.1]; exact h

theorem parseValue_number (fuel : Nat) (n : Number) (rest : List Char) (hrest : Stops rest) :
    parseValue (fuel + 1) (n.text ++ rest) = some (Value.number n.text, rest) := by
  obtain ⟨c, cs, he, hc⟩ := text_head n
  have htake := takeNumber_append n.text rest (text_all_isNumberChar n) hrest
  have hvalid := validNumber_text n
  rw [he] at htake hvalid ⊢
  rw [List.cons_append] at htake ⊢
  have h1 : c ≠ '{' := by rintro rfl; simp [isNumberChar, isDigit] at hc
  have h2 : c ≠ '[' := by rintro rfl; simp [isNumberChar, isDigit] at hc
  have h3 : c ≠ '"' := by rintro rfl; simp [isNumberChar, isDigit] at hc
  have h4 : c ≠ 't' := by rintro rfl; simp [isNumberChar, isDigit] at hc
  have h5 : c ≠ 'f' := by rintro rfl; simp [isNumberChar, isDigit] at hc
  have h6 : c ≠ 'n' := by rintro rfl; simp [isNumberChar, isDigit] at hc
  rw [parseValue, skipWs_cons _ _ (isWs_of_isNumberChar c hc)]
  simp only [h1, h2, h3, h4, h5, h6, if_false, htake, hvalid, if_true]

mutual

/-- Reading the encoding of a document gives its value and leaves the text after
it. -/
theorem parseValue_encode : (d : Doc) → ∀ (fuel : Nat) (rest : List Char),
    cost d ≤ fuel → Stops rest → parseValue fuel (encode d ++ rest) = some (toValue d, rest)
  | .null, fuel, rest, hf, _ => by
    obtain ⟨g, rfl⟩ : ∃ k, fuel = k + 1 := ⟨fuel - 1, by rw [cost] at hf; omega⟩
    rw [encode, toValue, parseValue]
    simp [skipWs, isWs, dropLiteral]
  | .bool true, fuel, rest, hf, _ => by
    obtain ⟨g, rfl⟩ : ∃ k, fuel = k + 1 := ⟨fuel - 1, by rw [cost] at hf; omega⟩
    rw [encode, toValue, parseValue]
    simp [skipWs, isWs, dropLiteral]
  | .bool false, fuel, rest, hf, _ => by
    obtain ⟨g, rfl⟩ : ∃ k, fuel = k + 1 := ⟨fuel - 1, by rw [cost] at hf; omega⟩
    rw [encode, toValue, parseValue]
    simp [skipWs, isWs, dropLiteral]
  | .number n, fuel, rest, hf, hrest => by
    obtain ⟨g, rfl⟩ : ∃ k, fuel = k + 1 := ⟨fuel - 1, by rw [cost] at hf; omega⟩
    rw [encode, toValue]
    exact parseValue_number g n rest hrest
  | .string s, fuel, rest, hf, _ => by
    obtain ⟨g, rfl⟩ : ∃ k, fuel = k + 1 := ⟨fuel - 1, by rw [cost] at hf; omega⟩
    rw [encode, toValue, encodeString_append, parseValue, skipWs_cons _ _ (by decide)]
    simp [parseString_escaped]
  | .array [], fuel, rest, hf, _ => by
    obtain ⟨g, rfl⟩ : ∃ k, fuel = k + 1 := ⟨fuel - 1, by rw [cost] at hf; omega⟩
    rw [encode, toValue, toValues, parseValue]
    simp [skipWs, isWs]
  | .array (v :: items), fuel, rest, hf, _ => by
    obtain ⟨g, rfl⟩ : ∃ k, fuel = k + 1 := ⟨fuel - 1, by rw [cost] at hf; omega⟩
    have hitems := parseElements_encode (v :: items) (List.cons_ne_nil _ _) g rest
      (by rw [cost] at hf; omega)
    obtain ⟨c, cs, he, hw, hb⟩ : ∃ c cs, encodeItems (v :: items) ++ rest = c :: cs ∧
        isWs c = false ∧ c ≠ ']' := by
      obtain ⟨c, cs, he, hw, hb⟩ := encode_head v
      cases items with
      | nil => exact ⟨c, cs ++ ([']'] ++ rest), by rw [encodeItems, he]; simp, hw, hb⟩
      | cons w more =>
        exact ⟨c, cs ++ (',' :: encodeItems (w :: more) ++ rest),
          by rw [encodeItems, he]; simp, hw, hb⟩
    rw [encode, toValue, List.cons_append, parseValue, skipWs_cons _ _ (by decide)]
    simp only [Char.reduceEq, if_false, if_true]
    rw [he, skipWs_cons _ _ hw]
    simp only [hb, if_false]
    rw [← he, hitems]
    rfl
  | .object [], fuel, rest, hf, _ => by
    obtain ⟨g, rfl⟩ : ∃ k, fuel = k + 1 := ⟨fuel - 1, by rw [cost] at hf; omega⟩
    rw [encode, toValue, toMembers, parseValue]
    simp [skipWs, isWs]
  | .object (m :: members), fuel, rest, hf, _ => by
    obtain ⟨g, rfl⟩ : ∃ k, fuel = k + 1 := ⟨fuel - 1, by rw [cost] at hf; omega⟩
    have hmem := parseMembers_encode (m :: members) (List.cons_ne_nil _ _) g rest
      (by rw [cost] at hf; omega)
    obtain ⟨cs, he⟩ : ∃ cs, encodeMembers (m :: members) ++ rest = '"' :: cs := by
      obtain ⟨k, v⟩ := m
      cases members with
      | nil =>
        simp only [encodeMembers, encodeString, List.cons_append]
        exact ⟨_, rfl⟩
      | cons w more =>
        simp only [encodeMembers, encodeString, List.cons_append]
        exact ⟨_, rfl⟩
    rw [encode, toValue, List.cons_append, parseValue, skipWs_cons _ _ (by decide)]
    simp only [Char.reduceEq, if_false, if_true]
    rw [he, skipWs_cons _ _ (by decide)]
    simp only [Char.reduceEq, if_false]
    rw [← he, hmem]
    rfl

/-- Reading the encoded elements of an array gives their values. -/
theorem parseElements_encode : (l : List Doc) → l ≠ [] → ∀ (fuel : Nat) (rest : List Char),
    costItems l ≤ fuel →
    parseElements fuel (encodeItems l ++ rest) = some (toValues l, rest)
  | [], h, _, _, _ => absurd rfl h
  | [v], _, fuel, rest, hf => by
    obtain ⟨g, rfl⟩ : ∃ k, fuel = k + 1 := ⟨fuel - 1, by rw [costItems] at hf; omega⟩
    have hv := parseValue_encode v g (']' :: rest) (by rw [costItems] at hf; omega)
      (stops_cons _ _ (by decide))
    rw [encodeItems, List.append_assoc, List.singleton_append, parseElements, hv]
    simp [skipWs, isWs, toValues]
  | v :: w :: more, _, fuel, rest, hf => by
    obtain ⟨g, rfl⟩ : ∃ k, fuel = k + 1 := ⟨fuel - 1, by rw [costItems] at hf; omega⟩
    have hv := parseValue_encode v g (',' :: (encodeItems (w :: more) ++ rest))
      (by rw [costItems] at hf; omega) (stops_cons _ _ (by decide))
    have hrest := parseElements_encode (w :: more) (List.cons_ne_nil _ _) g rest
      (by rw [costItems] at hf; omega)
    rw [encodeItems, List.append_assoc, List.cons_append, parseElements, hv]
    simp only [skipWs_cons _ _ (by decide : isWs ',' = false), if_true, hrest]
    rw [toValues]
    rfl

/-- Reading the encoded members of an object gives their names and values. -/
theorem parseMembers_encode : (l : List (List Char × Doc)) → l ≠ [] →
    ∀ (fuel : Nat) (rest : List Char), costMembers l ≤ fuel →
    parseMembers fuel (encodeMembers l ++ rest) = some (toMembers l, rest)
  | [], h, _, _, _ => absurd rfl h
  | [(k, v)], _, fuel, rest, hf => by
    obtain ⟨g, rfl⟩ : ∃ n, fuel = n + 1 := ⟨fuel - 1, by rw [costMembers] at hf; omega⟩
    have hv := parseValue_encode v g ('}' :: rest) (by rw [costMembers] at hf; omega)
      (stops_cons _ _ (by decide))
    have hform : encodeMembers [(k, v)] ++ rest =
        '"' :: (k.flatMap escapeChar ++ '"' :: (':' :: (encode v ++ '}' :: rest))) := by
      simp [encodeMembers, encodeString]
    rw [hform, parseMembers, skipWs_cons _ _ (by decide)]
    simp only [if_true, parseString_escaped]
    rw [skipWs_cons _ _ (by decide)]
    simp only [if_true, hv]
    simp [skipWs, isWs, toMembers]
  | (k, v) :: w :: more, _, fuel, rest, hf => by
    obtain ⟨g, rfl⟩ : ∃ n, fuel = n + 1 := ⟨fuel - 1, by rw [costMembers] at hf; omega⟩
    have hv := parseValue_encode v g (',' :: (encodeMembers (w :: more) ++ rest))
      (by rw [costMembers] at hf; omega) (stops_cons _ _ (by decide))
    have hrest := parseMembers_encode (w :: more) (List.cons_ne_nil _ _) g rest
      (by rw [costMembers] at hf; omega)
    have hform : encodeMembers ((k, v) :: w :: more) ++ rest =
        '"' :: (k.flatMap escapeChar ++
          '"' :: (':' :: (encode v ++ ',' :: (encodeMembers (w :: more) ++ rest)))) := by
      simp [encodeMembers, encodeString]
    rw [hform, parseMembers, skipWs_cons _ _ (by decide)]
    simp only [if_true, parseString_escaped]
    rw [skipWs_cons _ _ (by decide)]
    simp only [if_true, hv]
    simp only [skipWs_cons _ _ (by decide : isWs ',' = false), if_true, hrest]
    rw [toMembers]
    rfl

end

end Json

namespace Json

mutual

theorem cost_le_length : (d : Doc) → cost d ≤ (encode d).length
  | .null => by rw [cost, encode]; decide
  | .bool true => by rw [cost, encode]; decide
  | .bool false => by rw [cost, encode]; decide
  | .number n => by
    obtain ⟨c, cs, he, _⟩ := text_head n
    rw [cost, encode, he, List.length_cons]; omega
  | .string s => by rw [cost, encode, encodeString, List.length_cons]; omega
  | .array [] => by rw [cost, costItems, encode]; decide
  | .array (v :: items) => by
    have := costItems_le_length (v :: items)
    rw [cost, encode, List.length_cons]; omega
  | .object [] => by rw [cost, costMembers, encode]; decide
  | .object (m :: members) => by
    have := costMembers_le_length (m :: members)
    rw [cost, encode, List.length_cons]; omega

theorem costItems_le_length : (l : List Doc) → costItems l ≤ (encodeItems l).length
  | [] => by rw [costItems]; omega
  | [v] => by
    have := cost_le_length v
    simp only [costItems, encodeItems, List.length_append, List.length_cons, List.length_nil]
    omega
  | v :: w :: more => by
    have := cost_le_length v
    have := costItems_le_length (w :: more)
    rw [costItems, encodeItems]
    simp only [List.length_append, List.length_cons]
    omega

theorem costMembers_le_length :
    (l : List (List Char × Doc)) → costMembers l ≤ (encodeMembers l).length
  | [] => by rw [costMembers]; omega
  | [(k, v)] => by
    have := cost_le_length v
    simp only [costMembers, encodeMembers, List.length_append, List.length_cons,
      List.length_nil]
    omega
  | (k, v) :: w :: more => by
    have := cost_le_length v
    have := costMembers_le_length (w :: more)
    rw [costMembers, encodeMembers]
    simp only [List.length_append, List.length_cons]
    omega

end

/-- Reading the encoding of a document gives the document back: every value of the
encoder is well-formed JSON for the reader. -/
theorem parse_encode (d : Doc) : parse (encode d) = some (toValue d) := by
  have hcost := cost_le_length d
  have h := parseValue_encode d (2 * (encode d).length + 2) [] (by omega)
    (fun c cs e => by cases e)
  rw [List.append_nil] at h
  rw [parse, h]
  rfl

theorem escapeChar_no_newline (c : Char) : ∀ x ∈ escapeChar c, x ≠ '\n' := by
  unfold escapeChar
  split
  · decide
  split
  · decide
  split
  · decide
  split
  · decide
  split
  · decide
  split
  · decide
  split
  · decide
  split
  · next h =>
    have : ∀ n, n < 32 → ∀ x ∈ ['\\', 'u', '0', '0', Nat.digitChar (n / 16),
        Nat.digitChar (n % 16)], x ≠ '\n' := by decide
    exact this c.toNat h
  · next _ _ hn _ _ _ _ _ =>
    intro x hx
    rw [List.mem_singleton] at hx
    rw [hx]; exact hn

theorem encodeString_no_newline (s : List Char) : ∀ x ∈ encodeString s, x ≠ '\n' := by
  intro x hx
  simp only [encodeString, List.mem_cons, List.mem_append, List.mem_flatMap,
    List.mem_singleton, List.not_mem_nil, or_false] at hx
  rcases hx with rfl | ⟨c, _, hc⟩ | rfl
  · decide
  · exact escapeChar_no_newline c x hc
  · decide

theorem isNumberChar_no_newline (l : List Char) (h : l.all isNumberChar = true) :
    ∀ x ∈ l, x ≠ '\n' := by
  intro x hx
  have := List.all_eq_true.1 h x hx
  rintro rfl
  simp [isNumberChar, isDigit] at this

mutual

/-- The encoding of a document holds no newline. -/
theorem encode_no_newline : (d : Doc) → ∀ x ∈ encode d, x ≠ '\n'
  | .null => by rw [encode]; decide
  | .bool true => by rw [encode]; decide
  | .bool false => by rw [encode]; decide
  | .number n => by rw [encode]; exact isNumberChar_no_newline _ (text_all_isNumberChar n)
  | .string s => by rw [encode]; exact encodeString_no_newline s
  | .array [] => by rw [encode]; decide
  | .array (v :: items) => by
    have := encodeItems_no_newline (v :: items)
    rw [encode]
    intro x hx
    rcases List.mem_cons.1 hx with rfl | hx
    · decide
    · exact this x hx
  | .object [] => by rw [encode]; decide
  | .object (m :: members) => by
    have := encodeMembers_no_newline (m :: members)
    rw [encode]
    intro x hx
    rcases List.mem_cons.1 hx with rfl | hx
    · decide
    · exact this x hx

theorem encodeItems_no_newline : (l : List Doc) → ∀ x ∈ encodeItems l, x ≠ '\n'
  | [] => by rw [encodeItems]; decide
  | [v] => by
    have := encode_no_newline v
    rw [encodeItems]
    intro x hx
    rcases List.mem_append.1 hx with hx | hx
    · exact this x hx
    · rw [List.mem_singleton] at hx; rw [hx]; decide
  | v :: w :: more => by
    have h1 := encode_no_newline v
    have h2 := encodeItems_no_newline (w :: more)
    rw [encodeItems]
    intro x hx
    rcases List.mem_append.1 hx with hx | hx
    · exact h1 x hx
    · rcases List.mem_cons.1 hx with rfl | hx
      · decide
      · exact h2 x hx

theorem encodeMembers_no_newline :
    (l : List (List Char × Doc)) → ∀ x ∈ encodeMembers l, x ≠ '\n'
  | [] => by rw [encodeMembers]; decide
  | [(k, v)] => by
    have := encode_no_newline v
    rw [encodeMembers]
    intro x hx
    simp only [List.mem_append, List.mem_cons, List.mem_singleton, List.not_mem_nil,
      or_false] at hx
    rcases hx with (hx | rfl | hx) | rfl
    · exact encodeString_no_newline k x hx
    · decide
    · exact this x hx
    · decide
  | (k, v) :: w :: more => by
    have h1 := encode_no_newline v
    have h2 := encodeMembers_no_newline (w :: more)
    rw [encodeMembers]
    intro x hx
    simp only [List.mem_append, List.mem_cons] at hx
    rcases hx with (hx | rfl | hx) | rfl | hx
    · exact encodeString_no_newline k x hx
    · decide
    · exact h1 x hx
    · decide
    · exact h2 x hx

end

theorem toMembers_append (l1 l2 : List (List Char × Doc)) :
    toMembers (l1 ++ l2) = toMembers l1 ++ toMembers l2 := by
  induction l1 with
  | nil => rfl
  | cons m rest ih =>
    obtain ⟨k, v⟩ := m
    rw [List.cons_append, toMembers, toMembers, ih, List.cons_append]

theorem lookup_toMembers_none (l : List (List Char × Doc)) (k : List Char)
    (h : ∀ m ∈ l, m.1 ≠ k) : (toMembers l).lookup k = none := by
  induction l with
  | nil => rfl
  | cons m rest ih =>
    obtain ⟨k1, v⟩ := m
    have hne : k1 ≠ k := h (k1, v) (List.mem_cons_self _ _)
    have hb : (k == k1) = false := by simpa using fun e => hne e.symm
    rw [toMembers, List.lookup_cons, hb]
    exact ih fun m hm => h m (List.mem_cons_of_mem _ hm)

theorem lookup_append_skip (l1 l2 : List (List Char × Value)) (k : List Char)
    (h : l1.lookup k = none) : (l1 ++ l2).lookup k = l2.lookup k := by
  rw [List.lookup_append, h]
  rfl

end Json

/-! ## `processStreamResponse` -/

namespace Yunikorn

open EventRepository

theorem enumMember_key {α : Type} [BEq α] (all : List α) (name : α → String) (field : String)
    (form : EnumForm) (omitEmpty : Bool) (a : α) :
    ∀ m ∈ enumMember all name field form omitEmpty a, m.1 = field.data := by
  intro m hm
  unfold enumMember at hm
  split at hm
  · exact absurd hm (List.not_mem_nil _)
  · rw [List.mem_singleton] at hm
    rw [hm]

/-- The number or the name written for an event type is read back as that type, and
a type that is left out is read as the first one. -/
theorem enumValue_type (t : EventType) (form : EnumForm) (omitEmpty : Bool) :
    enumValue eventTypes EventType.String "type"
      ((Json.toMembers (enumMember eventTypes EventType.String "type" form omitEmpty t)).lookup
        "type".data) = .ok t := by
  cases t <;> cases form <;> cases omitEmpty <;> rfl

/-- The number or the name written for a change type is read back as that change
type, and a change type that is left out is read as the first one. -/
theorem enumValue_changeType (c : ChangeType) (form : EnumForm) (omitEmpty : Bool) :
    enumValue changeTypes ChangeType.String "eventChangeType"
      ((Json.toMembers
        (enumMember changeTypes ChangeType.String "eventChangeType" form omitEmpty c)).lookup
        "eventChangeType".data) = .ok c := by
  cases c <;> cases form <;> cases omitEmpty <;> rfl

theorem wellFormed_names (e : Envelope) (hwf : e.wellFormed = true) :
    ∀ m ∈ e.before ++ (e.between ++ e.after),
      m.1 ≠ "type".data ∧ m.1 ≠ "eventChangeType".data := by
  intro m hm
  unfold Envelope.wellFormed at hwf
  have := List.all_eq_true.1 hwf m hm
  simpa using this

/-- In the members of a well-formed envelope, a field name finds the enumeration
member of that name, whatever the domain fields around it. -/
theorem lookup_members (before tm between cm after : List (List Char × Json.Doc))
    (k : List Char)
    (hb : ∀ m ∈ before, m.1 ≠ k) (hbt : ∀ m ∈ between, m.1 ≠ k) (ha : ∀ m ∈ after, m.1 ≠ k) :
    ((∀ m ∈ cm, m.1 ≠ k) →
      (Json.toMembers (before ++ (tm ++ (between ++ (cm ++ after))))).lookup k =
        (Json.toMembers tm).lookup k) ∧
    ((∀ m ∈ tm, m.1 ≠ k) →
      (Json.toMembers (before ++ (tm ++ (between ++ (cm ++ after))))).lookup k =
        (Json.toMembers cm).lookup k) := by
  have h1 := Json.lookup_toMembers_none before k hb
  have h2 := Json.lookup_toMembers_none between k hbt
  have h3 := Json.lookup_toMembers_none after k ha
  constructor
  · intro hc
    have h4 := Json.lookup_toMembers_none cm k hc
    simp only [Json.toMembers_append, List.lookup_append, h1, h2, h3, h4, Option.or_none,
      Option.none_or]
  · intro ht
    have h4 := Json.lookup_toMembers_none tm k ht
    simp only [Json.toMembers_append, List.lookup_append, h1, h2, h3, h4, Option.or_none,
      Option.none_or]

theorem decodeEvent_object (line : List Char) (members : List (List Char × Json.Value))
    (t : EventType) (c : ChangeType) (hp : Json.parse line = some (Json.Value.object members))
    (ht : enumField eventTypes EventType.String "type" members = .ok t)
    (hc : enumField changeTypes ChangeType.String "eventChangeType" members = .ok c) :
    decodeEvent line = .ok ⟨t, c⟩ := by
  unfold decodeEvent
  rw [hp]
  simp only [ht, hc]

/-- Every well-formed envelope decodes from its JSON encoding to its record, and the
encoding holds no newline. -/
theorem decodeEvent_encode (e : Envelope) (hwf : e.wellFormed = true) :
    decodeEvent e.encode = .ok e.record ∧ '\n' ∉ e.encode := by
  have hnames := wellFormed_names e hwf
  have hb : ∀ m ∈ e.before, m.1 ≠ "type".data ∧ m.1 ≠ "eventChangeType".data :=
    fun m hm => hnames m (List.mem_append_left _ hm)
  have hbt : ∀ m ∈ e.between, m.1 ≠ "type".data ∧ m.1 ≠ "eventChangeType".data :=
    fun m hm => hnames m (List.mem_append_right _ (List.mem_append_left _ hm))
  have ha : ∀ m ∈ e.after, m.1 ≠ "type".data ∧ m.1 ≠ "eventChangeType".data :=
    fun m hm => hnames m (List.mem_append_right _ (List.mem_append_right _ hm))
  have htype := (lookup_members e.before
    (enumMember eventTypes EventType.String "type" e.typeForm e.omitEmpty e.record.type)
    e.between
    (enumMember changeTypes ChangeType.String "eventChangeType" e.changeForm e.omitEmpty
      e.record.eventChangeType)
    e.after "type".data (fun m hm => (hb m hm).1) (fun m hm => (hbt m hm).1)
    (fun m hm => (ha m hm).1)).1 (by
      intro m hm
      rw [enumMember_key _ _ _ _ _ _ m hm]
      decide)
  have hchange := (lookup_members e.before
    (enumMember eventTypes EventType.String "type" e.typeForm e.omitEmpty e.record.type)
    e.between
    (enumMember changeTypes ChangeType.String "eventChangeType" e.changeForm e.omitEmpty
      e.record.eventChangeType)
    e.after "eventChangeType".data (fun m hm => (hb m hm).2) (fun m hm => (hbt m hm).2)
    (fun m hm => (ha m hm).2)).2 (by
      intro m hm
      rw [enumMember_key _ _ _ _ _ _ m hm]
      decide)
  constructor
  · exact decodeEvent_object e.encode _ e.record.type e.record.eventChangeType
      (by rw [Envelope.encode, Json.parse_encode, Envelope.doc, Json.toValue])
      (by unfold enumField; rw [htype]; exact enumValue_type _ _ _)
      (by unfold enumField; rw [hchange]; exact enumValue_changeType _ _ _)
  · intro hmem
    exact Json.encode_no_newline e.doc '\n' hmem rfl

theorem splitLines_line (l rest : List Char) (hl : '\n' ∉ l) :
    splitLines (l ++ '\n' :: rest) = (l :: (splitLines rest).1, (splitLines rest).2) := by
  induction l with
  | nil => simp [splitLines]
  | cons c cs ih =>
    have hc : c ≠ '\n' := fun e => hl (e ▸ List.mem_cons_self _ _)
    have ih2 := ih fun hm => hl (List.mem_cons_of_mem _ hm)
    rw [List.cons_append, splitLines, ih2]
    simp [hc]

theorem splitLines_lines (ls : List (List Char)) (h : ∀ l ∈ ls, '\n' ∉ l) :
    splitLines (ls.flatMap fun l => l ++ ['\n']) = (ls, []) := by
  induction ls with
  | nil => rfl
  | cons l rest ih =>
    have h1 := h l (List.mem_cons_self _ _)
    have h2 := ih fun x hx => h x (List.mem_cons_of_mem _ hx)
    rw [List.flatMap_cons, List.append_assoc, List.singleton_append, splitLines_line _ _ h1, h2]

/-- The fragments of newline-terminated lines are the lines. -/
theorem lines_terminated (ls : List (List Char)) (h : ∀ l ∈ ls, '\n' ∉ l) :
    lines (ls.flatMap fun l => l ++ ['\n']) = ls := by
  rw [lines, splitLines_lines ls h]
  simp

theorem okEvents_cons_ok (l : List Char) (rest : List (List Char)) (ev : EventRecord)
    (h : decodeEvent l = .ok ev) : okEvents (l :: rest) = ev :: okEvents rest := by
  simp [okEvents, List.filterMap_cons, h]

theorem okEvents_cons_error (l : List Char) (rest : List (List Char)) (e : String)
    (h : decodeEvent l = .error e) : okEvents (l :: rest) = okEvents rest := by
  simp [okEvents, List.filterMap_cons, h]

theorem decodeErrors_cons_ok (l : List Char) (rest : List (List Char)) (ev : EventRecord)
    (h : decodeEvent l = .ok ev) : decodeErrors (l :: rest) = decodeErrors rest := by
  simp [decodeErrors, List.filterMap_cons, h]

theorem decodeErrors_cons_error (l : List Char) (rest : List (List Char)) (e : String)
    (h : decodeEvent l = .error e) :
    decodeErrors (l :: rest) =
      .decode ("could not unmarshal event from stream: " ++ e) l :: decodeErrors rest := by
  simp [decodeErrors, List.filterMap_cons, h]

/-- With a handler that never fails, the loop records the event of every fragment
that decodes and reports a decode error for every fragment that does not. -/
theorem processLines_eq (handler : EventRecord → Option String)
    (hh : ∀ ev, handler ev = none) (repo : InMemoryEventRepository)
    (fragments : List (List Char)) :
    ∀ h : Heap, processLines handler repo h fragments =
      (decodeErrors fragments, recordAll repo h (okEvents fragments)) := by
  induction fragments with
  | nil => intro h; rfl
  | cons l rest ih =>
    intro h
    cases hd : decodeEvent l with
    | error e =>
      rw [processLines, decodeErrors_cons_error l rest e hd, okEvents_cons_error l rest e hd]
      simp only [hd, ih]
    | ok ev =>
      rw [processLines, decodeErrors_cons_ok l rest ev hd, okEvents_cons_ok l rest ev hd]
      simp only [hd, hh ev, ih]
      rfl

theorem processStreamResponse_eq (handler : EventRecord → Option String)
    (hh : ∀ ev, handler ev = none) (repo : InMemoryEventRepository) (h : Heap)
    (input : List Char) :
    processStreamResponse handler repo h input =
      (decodeErrors (lines input), recordAll repo h (okEvents (lines input))) :=
  processLines_eq handler hh repo (lines input) h

theorem okEvents_envelopes (envelopes : List Envelope)
    (hwf : ∀ e ∈ envelopes, e.wellFormed = true) :
    okEvents (envelopes.map Envelope.encode) = envelopes.map Envelope.record ∧
    decodeErrors (envelopes.map Envelope.encode) = [] := by
  induction envelopes with
  | nil => exact ⟨rfl, rfl⟩
  | cons e rest ih =>
    have he := (decodeEvent_encode e (hwf e (List.mem_cons_self _ _))).1
    have ih2 := ih fun x hx => hwf x (List.mem_cons_of_mem _ hx)
    rw [List.map_cons, List.map_cons, okEvents_cons_ok _ _ _ he,
      decodeErrors_cons_ok _ _ _ he, ih2.1, ih2.2]
    exact ⟨rfl, rfl⟩

theorem countsOf_fresh_recordAll (h0 : Heap) (evs : List EventRecord) (k : String) :
    (countsOf (NewInMemoryEventRepository h0).1
      (recordAll (NewInMemoryEventRepository h0).1 (NewInMemoryEventRepository h0).2
        evs)).get k = countKey k evs := by
  have hlen : (NewInMemoryEventRepository h0).1.eventCounts <
      (NewInMemoryEventRepository h0).2.length := by
    simp [NewInMemoryEventRepository]
  have hempty : Heap.read (NewInMemoryEventRepository h0).2
      (NewInMemoryEventRepository h0).1.eventCounts = [] := by
    simp [NewInMemoryEventRepository, Heap.read, List.getD_eq_getElem?_getD]
  rw [countsOf_eq, get_recordAll _ _ _ _ hlen, hempty]
  simp [CountMap.get]

/-- C6: for every sequence of well-formed event envelopes (any domain fields, each
enumeration field as a number or a name, or left out when it is the first
enumerant) and every handler that never fails, `processStreamResponse` on a fresh
repository, applied to the JSON encodings of the envelopes each followed by a
newline, returns no error, and afterwards `Counts` maps every key to the number
of records of the sequence with that key.  The empty input returns no error and
records nothing; the line `{"type": 2, "eventChangeType": 2}` with its newline
gives APP-ADD = 1. -/
theorem processStreamResponse_counts (handler : EventRecord → Option String)
    (hh : ∀ ev, handler ev = none) (h0 : Heap) (envelopes : List Envelope)
    (hwf : ∀ e ∈ envelopes, e.wellFormed = true) :
    (processStreamResponse handler (NewInMemoryEventRepository h0).1
      (NewInMemoryEventRepository h0).2
      (envelopes.flatMap fun e => e.encode ++ ['\n'])).1 = [] ∧
    (∀ k : String,
      (countsOf (NewInMemoryEventRepository h0).1
        (processStreamResponse handler (NewInMemoryEventRepository h0).1
          (NewInMemoryEventRepository h0).2
          (envelopes.flatMap fun e => e.encode ++ ['\n'])).2).get k =
        countKey k (envelopes.map Envelope.record)) ∧
    processStreamResponse handler (NewInMemoryEventRepository h0).1
      (NewInMemoryEventRepository h0).2 [] = ([], (NewInMemoryEventRepository h0).2) ∧
    (processStreamResponse handler (NewInMemoryEventRepository h0).1
      (NewInMemoryEventRepository h0).2
      "\x7b\"type\": 2, \"eventChangeType\": 2\x7d\n".data).1 = [] ∧
    (countsOf (NewInMemoryEventRepository h0).1
      (processStreamResponse handler (NewInMemoryEventRepository h0).1
        (NewInMemoryEventRepository h0).2
        "\x7b\"type\": 2, \"eventChangeType\": 2\x7d\n".data).2).get "APP-ADD" = 1 := by
  have hflat : (envelopes.flatMap fun e => e.encode ++ ['\n']) =
      (envelopes.map Envelope.encode).flatMap fun l => l ++ ['\n'] := by
    rw [List.flatMap_map]
  have hlines : lines (envelopes.flatMap fun e => e.encode ++ ['\n']) =
      envelopes.map Envelope.encode := by
    rw [hflat]
    apply lines_terminated
    intro l hl
    obtain ⟨e, he, rfl⟩ := List.mem_map.1 hl
    exact (decodeEvent_encode e (hwf e he)).2
  have henv := okEvents_envelopes envelopes hwf
  have hrun : processStreamResponse handler (NewInMemoryEventRepository h0).1
      (NewInMemoryEventRepository h0).2 (envelopes.flatMap fun e => e.encode ++ ['\n']) =
      ([], recordAll (NewInMemoryEventRepository h0).1 (NewInMemoryEventRepository h0).2
        (envelopes.map Envelope.record)) := by
    rw [processStreamResponse_eq handler hh, hlines, henv.1, henv.2]
  have hline : processStreamResponse handler (NewInMemoryEventRepository h0).1
      (NewInMemoryEventRepository h0).2
      "\x7b\"type\": 2, \"eventChangeType\": 2\x7d\n".data =
      ([], recordAll (NewInMemoryEventRepository h0).1 (NewInMemoryEventRepository h0).2
        [⟨.APP, .ADD⟩]) := by
    rw [processStreamResponse_eq handler hh]
    have h1 : decodeErrors (lines "\x7b\"type\": 2, \"eventChangeType\": 2\x7d\n".data) = [] := by
      decide
    have h2 : okEvents (lines "\x7b\"type\": 2, \"eventChangeType\": 2\x7d\n".data) =
        [⟨.APP, .ADD⟩] := by decide
    rw [h1, h2]
  refine ⟨by rw [hrun], fun k => ?_, ?_, by rw [hline], ?_⟩
  · rw [hrun, countsOf_fresh_recordAll]
  · rw [processStreamResponse_eq handler hh]
    rfl
  · rw [hline, countsOf_fresh_recordAll]
    decide

/-- Witness for C6: three envelopes, one with domain fields (an escaped string, a
nested object with a fractional number, an array), one that leaves out both
enumeration fields, one that writes them as names. -/
theorem processStreamResponse_counts_witness :
    (processStreamResponse noopEventHandler (NewInMemoryEventRepository []).1
      (NewInMemoryEventRepository []).2
      (sampleEnvelopes.flatMap fun e => e.encode ++ ['\n'])).1 = [] ∧
    (countsOf (NewInMemoryEventRepository []).1
      (processStreamResponse noopEventHandler (NewInMemoryEventRepository []).1
        (NewInMemoryEventRepository []).2
        (sampleEnvelopes.flatMap fun e => e.encode ++ ['\n'])).2).get "APP-ADD" =
      countKey "APP-ADD" (sampleEnvelopes.map Envelope.record) :=
  ⟨(processStreamResponse_counts noopEventHandler (fun _ => rfl) [] sampleEnvelopes
      (by decide)).1,
    (processStreamResponse_counts noopEventHandler (fun _ => rfl) [] sampleEnvelopes
      (by decide)).2.1 "APP-ADD"⟩

theorem intercalate_go_sep_data (sep : String) (l : List String) :
    ∀ acc : String, (String.intercalate.go acc sep l).data =
      acc.data ++ l.flatMap fun a => sep.data ++ a.data := by
  induction l with
  | nil => intro acc; simp [String.intercalate.go]
  | cons a rest ih =>
    intro acc
    rw [String.intercalate.go, ih]
    simp only [String.data_append, List.append_assoc, List.flatMap_cons]

theorem mem_decodeErrors (fragments : List (List Char)) (err : StreamError) :
    err ∈ decodeErrors fragments ↔
      ∃ l ∈ fragments, ∃ e, decodeEvent l = .error e ∧
        err = .decode ("could not unmarshal event from stream: " ++ e) l := by
  unfold decodeErrors
  rw [List.mem_filterMap]
  constructor
  · rintro ⟨l, hl, h⟩
    cases hd : decodeEvent l with
    | ok ev => rw [hd] at h; cases h
    | error e =>
      rw [hd] at h
      exact ⟨l, hl, e, hd, (Option.some.inj h).symm⟩
  · rintro ⟨l, hl, e, hd, rfl⟩
    exact ⟨l, hl, by rw [hd]⟩

theorem phrase_infix (e : String) :
    "could not unmarshal event from stream".data <:+:
      ("could not unmarshal event from stream: " ++ e).data := by
  refine ⟨[], (": " ++ e).data, ?_⟩
  have : "could not unmarshal event from stream: ".data =
      "could not unmarshal event from stream".data ++ ": ".data := by decide
  simp only [List.nil_append, String.data_append, this, List.append_assoc]
  rfl

/-- C7: when a fragment of the input (a line, or the text after the last newline) is
not a valid event envelope, `processStreamResponse` (with a handler that never
fails) returns an error.  The error holds one decode error for every such
fragment and nothing else, in the order of the fragments; each carries its
fragment and a message that contains `could not unmarshal event from stream`,
and so does the text of the whole error.  No malformed fragment is skipped
silently and none is counted: the counts grow by the records of the valid
fragments, those after a malformed one included. -/
theorem processStreamResponse_decode_error (handler : EventRecord → Option String)
    (hh : ∀ ev, handler ev = none) (repo : InMemoryEventRepository) (h : Heap)
    (hrepo : repo.eventCounts < h.length) (input : List Char)
    (hbad : ∃ l ∈ lines input, ∃ e, decodeEvent l = .error e) :
    (processStreamResponse handler repo h input).1 ≠ [] ∧
    (processStreamResponse handler repo h input).1 = decodeErrors (lines input) ∧
    (∀ l ∈ lines input, ∀ e, decodeEvent l = .error e →
      StreamError.decode ("could not unmarshal event from stream: " ++ e) l ∈
        (processStreamResponse handler repo h input).1) ∧
    (∀ err ∈ (processStreamResponse handler repo h input).1,
      ∃ message fragment e, err = .decode message fragment ∧ fragment ∈ lines input ∧
        decodeEvent fragment = .error e ∧
        "could not unmarshal event from stream".data <:+: message.data) ∧
    "could not unmarshal event from stream".data <:+:
      (errorText (processStreamResponse handler repo h input).1).data ∧
    ∀ k : String,
      (countsOf repo (processStreamResponse handler repo h input).2).get k =
        (countsOf repo h).get k + countKey k (okEvents (lines input)) := by
  have hrun := processStreamResponse_eq handler hh repo h input
  obtain ⟨l0, hl0, e0, hd0⟩ := hbad
  have hmem0 : StreamError.decode ("could not unmarshal event from stream: " ++ e0) l0 ∈
      decodeErrors (lines input) :=
    (mem_decodeErrors _ _).2 ⟨l0, hl0, e0, hd0, rfl⟩
  refine ⟨?_, by rw [hrun], ?_, ?_, ?_, ?_⟩
  · rw [hrun]
    exact List.ne_nil_of_mem hmem0
  · intro l hl e hd
    rw [hrun]
    exact (mem_decodeErrors _ _).2 ⟨l, hl, e, hd, rfl⟩
  · intro err herr
    rw [hrun] at herr
    obtain ⟨l, hl, e, hd, rfl⟩ := (mem_decodeErrors _ _).1 herr
    exact ⟨_, l, e, rfl, hl, hd, phrase_infix e⟩
  · rw [hrun]
    cases herrs : decodeErrors (lines input) with
    | nil => rw [herrs] at hmem0; exact absurd hmem0 (List.not_mem_nil _)
    | cons err rest =>
      have herr : err ∈ decodeErrors (lines input) := by
        rw [herrs]; exact List.mem_cons_self _ _
      obtain ⟨l, _, e, _, rfl⟩ := (mem_decodeErrors _ _).1 herr
      obtain ⟨pre, post, hinfix⟩ := phrase_infix e
      refine ⟨pre, post ++ (rest.map StreamError.message).flatMap
        (fun a => "\n".data ++ a.data), ?_⟩
      simp only [errorText, List.map_cons, String.intercalate, intercalate_go_sep_data,
        StreamError.message]
      rw [← hinfix]
      simp only [List.append_assoc]
  · intro k
    rw [hrun, countsOf_eq, countsOf_eq, get_recordAll repo _ k h hrepo]

/-- Witness for C7: a valid line, the malformed line of the stream test (the envelope
without its closing brace), and a valid record after the last newline.  One
decode error is returned, for the malformed line, and both valid records are
counted. -/
theorem processStreamResponse_decode_error_witness :
    (processStreamResponse noopEventHandler ⟨0⟩ [[]] sampleInput).1 =
      [.decode "could not unmarshal event from stream: invalid JSON"
        "\x7b\"type\": 2, \"eventChangeType\": 2".data] ∧
    ∀ k : String,
      (countsOf ⟨0⟩ (processStreamResponse noopEventHandler ⟨0⟩ [[]] sampleInput).2).get k =
        (countsOf ⟨0⟩ [[]]).get k + countKey k [⟨.APP, .ADD⟩, ⟨.APP, .SET⟩] :=
  have h := processStreamResponse_decode_error noopEventHandler (fun _ => rfl) ⟨0⟩ [[]]
    (by decide) sampleInput
    ⟨"\x7b\"type\": 2, \"eventChangeType\": 2".data, by decide, "invalid JSON", rfl⟩
  ⟨h.2.1.trans (by decide), fun k => (h.2.2.2.2.2 k).trans (by
    have : okEvents (lines sampleInput) = [⟨.APP, .ADD⟩, ⟨.APP, .SET⟩] := by decide
    rw [this])⟩

end Yunikorn
